import Mathlib

/-!
Verification of the hyperke-csv-splitter core (src/src/utils/csvUtils.ts):
the split allocator `splitData` and the CSV codec `parseCSV` / `objectsToCSV`.

JavaScript strings are modelled as Lean `String` (allocator side, where only
key equality and concatenation matter) and as `List Char` (codec side, where
character scans are analysed).  JavaScript numbers holding row counts are
modelled as `Int`, since the allocator's arithmetic can go negative.
JavaScript objects are modelled as insertion-ordered association lists:
assigning to an existing key updates the value in place, assigning to a new
key appends.
-/

set_option maxRecDepth 8000

/-! ## Allocator data model -/

/-- One entry of the `configs` argument of `splitData`. -/
structure SplitConfig where
  accountName : String
  sentType : String
  splitSize : Int
deriving DecidableEq, Repr

/-- A data row on the allocator side: a JS object as an insertion-ordered
association list. -/
abbrev SRow := List (String × String)

/-- JS object assignment `r[k] = v`: update in place if the key exists,
otherwise append. -/
def setField (r : SRow) (k v : String) : SRow :=
  if r.any (fun p => p.1 = k) then r.map (fun p => if p.1 = k then (k, v) else p)
  else r ++ [(k, v)]

/-- `{...row, account, sent}` from the body of `splitData`. -/
def augmentRow (r : SRow) (account sent : String) : SRow :=
  setField (setField r ("account") account) ("sent") sent

/-- `data[i]` for an `Int` index; out-of-range reads give `undefined`, whose
spread contributes no fields, so they are modelled as the empty object. -/
def rowAtIdx (data : List SRow) (i : Int) : SRow :=
  if i < 0 then [] else data.getD i.toNat []

/-- The integer indices `start, start+1, ..., stop-1` (empty when
`stop ≤ start`). -/
def intRange (start stop : Int) : List Int :=
  (List.range (stop - start).toNat).map (fun k => start + Int.ofNat k)

/-- `Math.ceil(a / b)` for integers with `b > 0`. -/
def ceilDiv (a b : Int) : Int := -((-a).fdiv b)

/-- JS object assignment on the result map `result[k] = v`. -/
def setGroup (m : List (String × List SRow)) (k : String) (v : List SRow) :
    List (String × List SRow) :=
  if m.any (fun p => p.1 = k) then m.map (fun p => if p.1 = k then (k, v) else p)
  else m ++ [(k, v)]

/-- The row-collection loop
`for (i = start; i < start + n && i < len; i++) push({...data[i], account, sent})`,
with `stop = min (start + n) len`. -/
def sliceRows (data : List SRow) (account sent : String) (start stop : Int) :
    List SRow :=
  (intRange start stop).map (fun i => augmentRow (rowAtIdx data i) account sent)

/-- The group key `` `${accountName}_${sentType}` ``. -/
def keyOf (c : SplitConfig) : String := c.accountName ++ ("_") ++ c.sentType

/-- `configs.reduce((sum, c) => sum + (c.splitSize > 0 ? c.splitSize : 0), 0)`. -/
def totalSpecified (configs : List SplitConfig) : Int :=
  configs.foldl (fun acc c => acc + (if 0 < c.splitSize then c.splitSize else 0)) 0

/-- The `configs.forEach` loop of `splitData`.  State threaded through the
iterations: remaining configs, `startIndex`, `configsWithoutSplitSizeCount`
and the result object.  `nCfg` is `configs.length` of the full list and `T`
is `totalSpecifiedRecords`; both are fixed before the loop.  Returns the
result object and the final `startIndex`. -/
def splitLoop (data : List SRow) (nCfg : Nat) (T : Int) :
    List SplitConfig → Int → Int → List (String × List SRow) →
    List (String × List SRow) × Int
  | [], s, _, res => (res, s)
  | c :: rest, s, cw, res =>
    let len : Int := (data.length : Int)
    let n0 : Int :=
      if 0 < c.splitSize then min c.splitSize (len - s)
      else if 0 < cw then ceilDiv (len - T) cw
      else ceilDiv len (nCfg : Int)
    let cw1 : Int := if 0 < c.splitSize then cw else if 0 < cw then cw - 1 else cw
    let n : Int := min n0 (len - s)
    let res1 := setGroup res (keyOf c) (sliceRows data c.accountName c.sentType s (min (s + n) len))
    let s1 := s + n
    if nCfg = 1 ∧ s1 < len then
      splitLoop data nCfg T rest len cw1
        (setGroup res1 (keyOf c ++ ("_remainder"))
          (sliceRows data c.accountName (c.sentType ++ ("_remainder")) s1 len))
    else
      splitLoop data nCfg T rest s1 cw1 res1

/-- The remainder key derived from the last config,
`` `${lastConfig.accountName}_${lastConfig.sentType}_remainder` ``. -/
def remKeyOf (configs : List SplitConfig) : String :=
  keyOf (configs.getLastD { accountName := "", sentType := "", splitSize := 0 }) ++ ("_remainder")

/-- `splitData` from src/src/utils/csvUtils.ts (lines 99-205). -/
def splitData (data : List SRow) (configs : List SplitConfig) :
    List (String × List SRow) :=
  if data.length = 0 then []
  else
    let len : Int := (data.length : Int)
    let nonZeroCount := (configs.filter (fun c => 0 < c.splitSize)).length
    let cw0 : Int := (((configs.filter (fun c => c.splitSize = 0)).length : Nat) : Int)
    let T := totalSpecified configs
    let p := splitLoop data configs.length T configs 0 cw0 []
    if p.2 < len ∧ (0 < T ∧ T < len ∧ nonZeroCount = configs.length) then
      let lastC := configs.getLastD { accountName := "", sentType := "", splitSize := 0 }
      setGroup p.1 (remKeyOf configs)
        (sliceRows data lastC.accountName (lastC.sentType ++ ("_remainder")) p.2 len)
    else p.1

/-! ## CSV codec data model

Codec-side strings are `List Char`; a parsed row maps column names to cell
values as an insertion-ordered association list. -/

/-- A data row on the codec side. -/
abbrev CRow := List (List Char × List Char)

/-- First global pass `csvString.replace(/\r\n/g, '\n')`. -/
def replaceCRLF : List Char → List Char
  | '\r' :: '\n' :: rest => '\n' :: replaceCRLF rest
  | c :: rest => c :: replaceCRLF rest
  | [] => []

/-- Second global pass `.replace(/\r/g, '\n')`. -/
def replaceCR (l : List Char) : List Char :=
  l.map (fun c => if c = '\r' then '\n' else c)

/-- Line-ending normalisation of `parseCSV`. -/
def normalizeNL (l : List Char) : List Char := replaceCR (replaceCRLF l)

/-- `str.split(sep)` for a single-character separator: JS split always
returns at least one (possibly empty) piece. -/
def splitOnChar (sep : Char) : List Char → List (List Char)
  | [] => [[]]
  | c :: rest =>
    match splitOnChar sep rest with
    | [] => [[c]]
    | h :: t => if c = sep then [] :: h :: t else (c :: h) :: t

/-- The characters JS `String.prototype.trim` strips: ECMAScript WhiteSpace
(TAB, VT, FF, SP, NBSP, ZWNBSP and the Unicode Zs space separators) together
with the LineTerminators (LF, CR, LS, PS), per current Unicode. -/
def isWS (c : Char) : Bool :=
  c = ' ' || c = '\t' || c = '\n' || c = '\r' || c = '\x0b' || c = '\x0c' ||
  c = '\u00a0' || c = '\u1680' ||
  (0x2000 ≤ c.toNat && c.toNat ≤ 0x200a) ||
  c = '\u2028' || c = '\u2029' || c = '\u202f' || c = '\u205f' ||
  c = '\u3000' || c = '\ufeff'

/-- JS `str.trim()`. -/
def trimWS (l : List Char) : List Char :=
  ((l.dropWhile isWS).reverse.dropWhile isWS).reverse

/-- First-match association-list lookup, i.e. JS `obj[key]` (JS object keys
are unique, and every row built here keeps its keys unique). -/
def lookupKV (k : List Char) : CRow → Option (List Char)
  | [] => none
  | p :: rest => if p.1 = k then some p.2 else lookupKV k rest

/-- JS object assignment `row[k] = v` on a codec-side row. -/
def setKV (r : CRow) (k v : List Char) : CRow :=
  if r.any (fun p => p.1 = k) then r.map (fun p => if p.1 = k then (k, v) else p)
  else r ++ [(k, v)]

/-- The single-pass character scan of `parseCSV` (lines 33-47): a `"`
toggles the quote state and is dropped, a `,` outside quotes ends the
current field (pushed trimmed), anything else is appended to the current
field buffer.  At end of line the buffer is pushed trimmed. -/
def scanAux : List Char → Bool → List Char → List (List Char)
  | [], _, cur => [trimWS cur]
  | c :: rest, inQ, cur =>
    if c = '"' then scanAux rest (!inQ) cur
    else if c = ',' ∧ inQ = false then trimWS cur :: scanAux rest false []
    else scanAux rest inQ (cur ++ [c])

/-- Field extraction for one line. -/
def scanValues (l : List Char) : List (List Char) := scanAux l false []

/-- `value.replace(/""/g, '"')`: un-escape doubled quotes, left to right. -/
def replaceQQ : List Char → List Char
  | '"' :: '"' :: rest => '"' :: replaceQQ rest
  | c :: rest => c :: replaceQQ rest
  | [] => []

/-- JS `value.substring(a, b)` (argument order swaps when `a > b`; both
indices are in range at the call site). -/
def jsSubstring (v : List Char) (a b : Nat) : List Char :=
  (v.take (max a b)).drop (min a b)

/-- Lines 58-62 of `parseCSV`: strip one layer of wrapping quotes if present
and un-escape doubled quotes. -/
def stripQuotes (v : List Char) : List Char :=
  if v.head? = some '"' ∧ v.getLast? = some '"' then
    replaceQQ (jsSubstring v 1 (v.length - 1))
  else v

/-- `headers.forEach((header, index) => row[header] = strip(values[index]))`
with `headers.length = values.length` guaranteed by the caller. -/
def buildRow (headers values : List (List Char)) : CRow :=
  (headers.zip values).foldl (fun r p => setKV r p.1 (stripQuotes p.2)) []

/-- Processing of the data lines (indices 1..) of `parseCSV`: blank lines
(after trimming) and lines whose field count differs from the header count
are skipped. -/
def parseLine (headers : List (List Char)) (line : List Char) : Option CRow :=
  let l := trimWS line
  if l = [] then none
  else
    let values := scanValues l
    if values.length ≠ headers.length then none
    else some (buildRow headers values)

/-- `parseCSV` from src/src/utils/csvUtils.ts (lines 7-71). -/
def parseCSV (s : List Char) : List CRow :=
  let lines := splitOnChar '\n' (normalizeNL s)
  if lines.length < 2 then []
  else
    let headers := (splitOnChar ',' (lines.headD [])).map trimWS
    (lines.drop 1).filterMap (parseLine headers)

/-- `arr.join(',')` (and the `\n`-join shape used in proofs). -/
def joinSep (sep : List Char) : List (List Char) → List Char
  | [] => []
  | [p] => p
  | p :: q :: rest => p ++ sep ++ joinSep sep (q :: rest)

/-- `value.replace(/"/g, '""')`. -/
def escQuotes (v : List Char) : List Char :=
  v.flatMap (fun c => if c = '"' then ['"', '"'] else [c])

/-- One emitted field of `objectsToCSV` (lines 85-91): missing keys give the
empty field, and a field containing a comma, quote or newline is wrapped in
quotes with internal quotes doubled. -/
def csvField (row : CRow) (header : List Char) : List Char :=
  let value := (lookupKV header row).getD []
  if ',' ∈ value ∨ '"' ∈ value ∨ '\n' ∈ value then
    '"' :: escQuotes value ++ ['"']
  else value

/-- `objectsToCSV` from src/src/utils/csvUtils.ts (lines 74-96); the
optional `headers` argument is `Option`al, `none` meaning absent
(`headers || Object.keys(data[0])` — an explicitly passed empty list is
still used, since an empty JS array is truthy). -/
def objectsToCSV (data : List CRow) (headersOpt : Option (List (List Char))) :
    List Char :=
  if data.length = 0 then []
  else
    let csvHeaders := match headersOpt with
      | some hs => hs
      | none => (data.headD []).map (fun p => p.1)
    data.foldl
      (fun acc row => acc ++ joinSep [','] (csvHeaders.map (csvField row)) ++ ['\n'])
      (joinSep [','] csvHeaders ++ ['\n'])

/-! ## Concrete sample data -/

/-- `n` distinct one-field rows, used as concrete documents. -/
def sampleRows (n : Nat) : List SRow :=
  (List.range n).map (fun i => [(("x"), toString i)])

/-! ## Concrete evaluations: C10, C7, C3, C6 and counterexamples -/

/-- C10: with two specs sharing the same `accountName` and `sentType`, the
second spec re-initialises the shared group key, so the first input row's
content appears in no output group. -/
theorem C10_duplicate_key_drops_row :
    splitData [[(("x"), ("r0"))], [(("x"), ("r1"))]] [⟨"A", "s", 1⟩, ⟨"A", "s", 1⟩] =
      [(("A_s"), [[(("x"), ("r1")), (("account"), ("A")), (("sent"), ("s"))]])] ∧
    ((splitData [[(("x"), ("r0"))], [(("x"), ("r1"))]] [⟨"A", "s", 1⟩, ⟨"A", "s", 1⟩]).all
      (fun g => g.2.all (fun r => !(r.contains ((("x"), ("r0"))))))) = true := by
  decide

/-- C7 counterexample: `splitData` on an empty document with one spec
returns the empty mapping, not one empty group per spec. -/
theorem C7_counterexample :
    splitData ([] : List SRow) [⟨"A", "s", 1⟩] = [] ∧
    (splitData ([] : List SRow) [⟨"A", "s", 1⟩]).length ≠ 1 := by
  decide

/-- C7 (amended): for every spec list, `splitData` applied to an empty
document returns the empty mapping with no groups at all (policy (a)). -/
theorem C7_amended (configs : List SplitConfig) : splitData [] configs = [] := rfl

/-- C3: on the spec's quoted-field input the character scan drops every
quote character, so the second row's note parses as `she said hi`, not
`she said "hi"`; the un-escaping step of lines 58-62 never fires. -/
theorem C3_code_eval :
    parseCSV (("name,note\nAlice,\"hello, world\"\nBob,\"she said \"\"hi\"\"\"").data) =
      [[(("name").data, ("Alice").data), (("note").data, ("hello, world").data)],
       [(("name").data, ("Bob").data), (("note").data, ("she said hi").data)]] ∧
    ("she said hi").data ≠ ("she said \"hi\"").data := by
  decide

/-- C6: replacing a negative `splitSize` by `0` changes the result: with
5 rows, specs `[(A,x,-1), (B,y,0)]` give group sizes `(5,0)` but
`[(A,x,0), (B,y,0)]` give `(3,2)` — only `splitSize === 0` is counted as
"unspecified" by the code. -/
theorem C6_code_eval :
    (splitData (sampleRows 5) [⟨"A", "x", -1⟩, ⟨"B", "y", 0⟩]).map (fun g => (g.1, g.2.length)) =
      [(("A_x"), 5), (("B_y"), 0)] ∧
    (splitData (sampleRows 5) [⟨"A", "x", 0⟩, ⟨"B", "y", 0⟩]).map (fun g => (g.1, g.2.length)) =
      [(("A_x"), 3), (("B_y"), 2)] ∧
    splitData (sampleRows 5) [⟨"A", "x", -1⟩, ⟨"B", "y", 0⟩] ≠
      splitData (sampleRows 5) [⟨"A", "x", 0⟩, ⟨"B", "y", 0⟩] := by
  decide

/-- C1 counterexample: two specs with pairwise-distinct
`(accountName, sentType)` pairs but identical joined keys (`a` + `_` + `b_c`
and `a_b` + `_` + `c` both give `a_b_c`): the second spec re-initialises the
group, one row is lost, and the group lengths sum to 1 ≠ 2. -/
theorem C1_counterexample :
    (([⟨"a", "b_c", 1⟩, ⟨"a_b", "c", 1⟩] : List SplitConfig).map
        (fun c => (c.accountName, c.sentType))).Nodup ∧
    (([⟨"a", "b_c", 1⟩, ⟨"a_b", "c", 1⟩] : List SplitConfig).all
        (fun c => 0 ≤ c.splitSize)) = true ∧
    ((splitData (sampleRows 2) [⟨"a", "b_c", 1⟩, ⟨"a_b", "c", 1⟩]).map
        (fun g => g.2.length)).sum = 1 ∧
    (sampleRows 2).length = 2 ∧ (1 : Nat) ≠ 2 := by
  decide

/-- C2 counterexample: a value with an embedded quote does not round-trip:
`x"y` serialises to `"x""y"` but parses back as `xy`, because the scan drops
quote characters. -/
theorem C2_counterexample :
    parseCSV (objectsToCSV [[(("a").data, ("x\"y").data)]] (some [("a").data])) =
      [[(("a").data, ("xy").data)]] ∧
    [[(("a").data, ("xy").data)]] ≠ [[(("a").data, ("x\"y").data)]] := by
  decide

/-- C4 counterexample: 4 rows and three unspecified specs give group sizes
`(2,2,0)`; the claim's formula — ceil(still-unallocated leftover at the
spec's turn / remaining unspecified count) — predicts `ceil((4-2)/2) = 1`
for the second spec, not 2: the code divides a FIXED leftover, not the
still-unallocated one. -/
theorem C4_counterexample :
    (splitData (sampleRows 4) [⟨"A", "s1", 0⟩, ⟨"B", "s2", 0⟩, ⟨"C", "s3", 0⟩]).map
        (fun g => (g.1, g.2.length)) =
      [(("A_s1"), 2), (("B_s2"), 2), (("C_s3"), 0)] ∧
    ceilDiv (4 - 2) 2 = 1 ∧ (2 : Nat) ≠ 1 := by
  decide

/-- C5 counterexample: specs `[(A,s_remainder,1), (A,s,1)]` on 3 rows have
positive quotas summing below the row count, but the synthetic remainder key
`A_s_remainder` collides with the first spec's key: its group is overwritten,
the result has 2 groups instead of 3 and only 2 of the 3 rows survive. -/
theorem C5_counterexample :
    (splitData (sampleRows 3) [⟨"A", "s_remainder", 1⟩, ⟨"A", "s", 1⟩]).map
        (fun g => (g.1, g.2.length)) =
      [(("A_s_remainder"), 1), (("A_s"), 1)] ∧
    ((splitData (sampleRows 3) [⟨"A", "s_remainder", 1⟩, ⟨"A", "s", 1⟩]).map
        (fun g => g.2.length)).sum ≠ (sampleRows 3).length ∧
    (splitData (sampleRows 3) [⟨"A", "s_remainder", 1⟩, ⟨"A", "s", 1⟩]).length ≠ 3 := by
  decide

/-! ## Allocator: specification-side description and basic lemmas -/

/-- Number of specs whose quota is unspecified (`splitSize` exactly `0`,
the value the code counts). -/
def countZeros (cfgs : List SplitConfig) : Nat :=
  (cfgs.filter (fun c => c.splitSize = 0)).length

/-- `configs[configs.length - 1]` (only used on non-empty lists). -/
def lastCfg (configs : List SplitConfig) : SplitConfig :=
  configs.getLastD { accountName := "", sentType := "", splitSize := 0 }

/-- The allocation policy as the spec describes it (amended): a single
cursor `s` walks the row sequence; a spec with a positive quota takes its
quota, a spec with unspecified quota takes `ceil(L / c)` where `L` is the
fixed leftover `len - T` and `c` the count of unspecified specs not yet
processed; every take is capped by the rows still available; groups appear
in spec order.  Returns the groups and the final cursor. -/
def specAlloc (data : List SRow) (T : Int) :
    List SplitConfig → Int → Int → List (String × List SRow) × Int
  | [], s, _ => ([], s)
  | c :: rest, s, cw =>
    let len : Int := (data.length : Int)
    let d : Int := if 0 < c.splitSize then c.splitSize else ceilDiv (len - T) cw
    let n : Int := min d (len - s)
    let p := specAlloc data T rest (s + n) (if 0 < c.splitSize then cw else cw - 1)
    ((keyOf c, sliceRows data c.accountName c.sentType s (s + n)) :: p.1, p.2)

/-- Recursive form of `totalSpecified`. -/
def sumPosRec : List SplitConfig → Int
  | [] => 0
  | c :: rest => (if 0 < c.splitSize then c.splitSize else 0) + sumPosRec rest

/-- Total number of rows the specs ask for (quotas plus ceiling shares),
before capping by availability. -/
def demandSum (len T : Int) : List SplitConfig → Int → Int
  | [], _ => 0
  | c :: rest, cw =>
    (if 0 < c.splitSize then c.splitSize else ceilDiv (len - T) cw) +
      demandSum len T rest (if 0 < c.splitSize then cw else cw - 1)

/-- Remove the two reserved keys the allocator injects, recovering the
original field content of a row. -/
def eraseTags (r : SRow) : SRow :=
  r.filter (fun p => p.1 != ("account") && p.1 != ("sent"))

theorem fdiv_nonpos_of_nonpos : ∀ (a b : Int), a ≤ 0 → 0 ≤ b → Int.fdiv a b ≤ 0 := by
  intro a b ha hb
  match a, b with
  | Int.ofNat m, b =>
    have hm : (m : Int) ≤ 0 := ha
    have : m = 0 := by omega
    subst this
    simp [Int.zero_fdiv]
  | Int.negSucc m, Int.ofNat 0 => simp [Int.fdiv]
  | Int.negSucc m, Int.ofNat (n+1) =>
    show Int.negSucc (m / (n+1)) ≤ 0
    exact le_of_lt (Int.negSucc_lt_zero _)
  | Int.negSucc m, Int.negSucc n =>
    exact absurd hb (by exact of_decide_eq_false rfl)

theorem jsCeilDiv_one (a : Int) : ceilDiv a 1 = a := by
  simp [ceilDiv, Int.fdiv_one]

theorem jsCeilDiv_nonneg (a b : Int) (ha : 0 ≤ a) (hb : 0 ≤ b) : 0 ≤ ceilDiv a b := by
  have := fdiv_nonpos_of_nonpos (-a) b (by omega) hb
  unfold ceilDiv
  omega

theorem setGroup_append (m : List (String × List SRow)) (k : String) (v : List SRow)
    (h : ∀ p ∈ m, p.1 ≠ k) : setGroup m k v = m ++ [(k, v)] := by
  unfold setGroup
  have hc : (m.any (fun p => p.1 = k)) = false := by
    simp only [List.any_eq_false, decide_eq_true_eq]
    exact h
  simp [hc]

theorem intRange_length (s t : Int) : (intRange s t).length = (t - s).toNat := by
  simp [intRange]

theorem intRange_append (s m t : Int) (h1 : s ≤ m) (h2 : m ≤ t) :
    intRange s m ++ intRange m t = intRange s t := by
  unfold intRange
  have hsplit : (t - s).toNat = (m - s).toNat + (t - m).toNat := by omega
  rw [hsplit, List.range_add, List.map_append, List.map_map]
  congr 1
  apply List.map_congr_left
  intro k _
  simp only [Function.comp_apply, Int.ofNat_eq_coe]
  push_cast
  omega

theorem range_map_getD (l : List SRow) :
    (List.range l.length).map (fun k => l.getD k []) = l := by
  induction l with
  | nil => simp
  | cons a t ih =>
    have step : (List.range t.length).map ((fun k => (a :: t).getD k []) ∘ Nat.succ)
        = (List.range t.length).map (fun k => t.getD k []) := by
      apply List.map_congr_left
      intro k _
      simp
    rw [List.length_cons, List.range_succ_eq_map, List.map_cons, List.map_map]
    refine congrArg₂ List.cons rfl ?_
    rw [step, ih]

theorem sliceRows_length (data : List SRow) (a b : String) (s t : Int) :
    (sliceRows data a b s t).length = (t - s).toNat := by
  simp [sliceRows, intRange_length]


/-! ## Allocator: the loop refines the specification-side description -/

theorem countZeros_cons_pos (c : SplitConfig) (rest : List SplitConfig)
    (h : c.splitSize ≠ 0) : countZeros (c :: rest) = countZeros rest := by
  unfold countZeros
  rw [List.filter_cons_of_neg (by simp [h])]

theorem countZeros_cons_zero (c : SplitConfig) (rest : List SplitConfig)
    (h : c.splitSize = 0) : countZeros (c :: rest) = countZeros rest + 1 := by
  unfold countZeros
  rw [List.filter_cons_of_pos (by simp [h])]
  rw [List.length_cons]

theorem totalSpecified_eq_sumPosRec (cfgs : List SplitConfig) :
    totalSpecified cfgs = sumPosRec cfgs := by
  have aux : ∀ (l : List SplitConfig) (init : Int),
      l.foldl (fun acc c => acc + (if 0 < c.splitSize then c.splitSize else 0)) init =
        init + sumPosRec l := by
    intro l
    induction l with
    | nil => intro init; simp [sumPosRec]
    | cons c rest ih =>
      intro init
      rw [List.foldl_cons, ih, sumPosRec]
      ring
  have := aux cfgs 0
  unfold totalSpecified
  omega

theorem sumPosRec_nonneg (cfgs : List SplitConfig) : 0 ≤ sumPosRec cfgs := by
  induction cfgs with
  | nil => simp [sumPosRec]
  | cons c rest ih =>
    rw [sumPosRec]
    have : (0 : Int) ≤ if 0 < c.splitSize then c.splitSize else 0 := by
      split <;> omega
    omega

theorem splitLoop_eq_specAlloc (data : List SRow) (nCfg : Nat) (T : Int) (hn : nCfg ≠ 1) :
    ∀ (cfgs : List SplitConfig) (s cw : Int) (res : List (String × List SRow)),
      (∀ c ∈ cfgs, 0 ≤ c.splitSize) →
      cw = (countZeros cfgs : Int) →
      (cfgs.map keyOf).Nodup →
      (∀ c ∈ cfgs, ∀ p ∈ res, p.1 ≠ keyOf c) →
      splitLoop data nCfg T cfgs s cw res =
        (res ++ (specAlloc data T cfgs s cw).1, (specAlloc data T cfgs s cw).2) := by
  intro cfgs
  induction cfgs with
  | nil =>
    intro s cw res _ _ _ _
    simp [splitLoop, specAlloc]
  | cons c rest ih =>
    intro s cw res hnn hcw hnd hfresh
    have hfreshc : ∀ p ∈ res, p.1 ≠ keyOf c := hfresh c (by simp)
    have hc0 : 0 ≤ c.splitSize := hnn c (by simp)
    have hnd' : (rest.map keyOf).Nodup := (List.nodup_cons.mp hnd).2
    have hkc : keyOf c ∉ rest.map keyOf := (List.nodup_cons.mp hnd).1
    by_cases hc : 0 < c.splitSize
    · -- specified-quota head
      have hcz : (countZeros (c :: rest) : Int) = (countZeros rest : Int) := by
        unfold countZeros
        rw [List.filter_cons_of_neg (by simp; omega)]
      have hmin : min (min c.splitSize ((data.length : Int) - s)) ((data.length : Int) - s)
          = min c.splitSize ((data.length : Int) - s) := by omega
      have hstop : min (s + min c.splitSize ((data.length : Int) - s)) (data.length : Int)
          = s + min c.splitSize ((data.length : Int) - s) := by omega
      have hfresh' : ∀ c' ∈ rest, ∀ p ∈ res ++ [((keyOf c),
          sliceRows data c.accountName c.sentType s (s + min c.splitSize ((data.length : Int) - s)))],
          p.1 ≠ keyOf c' := by
        intro c' hc' p hp
        rcases List.mem_append.mp hp with h | h
        · exact hfresh c' (by simp [hc']) p h
        · have hp1 : p.1 = keyOf c := by
            have : p = ((keyOf c), sliceRows data c.accountName c.sentType s
              (s + min c.splitSize ((data.length : Int) - s))) := by simpa using h
            rw [this]
          rw [hp1]
          intro hEq
          exact hkc (hEq ▸ List.mem_map_of_mem keyOf hc')
      have step : splitLoop data nCfg T (c :: rest) s cw res =
          splitLoop data nCfg T rest (s + min c.splitSize ((data.length : Int) - s)) cw
            (res ++ [((keyOf c), sliceRows data c.accountName c.sentType s
              (s + min c.splitSize ((data.length : Int) - s)))]) := by
        rw [splitLoop]
        simp only [if_pos hc, hmin, hstop]
        rw [if_neg (fun h => hn h.1)]
        rw [setGroup_append _ _ _ hfreshc]
      have stepSpec : specAlloc data T (c :: rest) s cw =
          (((keyOf c), sliceRows data c.accountName c.sentType s
              (s + min c.splitSize ((data.length : Int) - s))) ::
            (specAlloc data T rest (s + min c.splitSize ((data.length : Int) - s)) cw).1,
           (specAlloc data T rest (s + min c.splitSize ((data.length : Int) - s)) cw).2) := by
        rw [specAlloc]
        simp only [if_pos hc]
      rw [step, ih _ cw _ (fun c' h => hnn c' (by simp [h])) (by rw [hcw, hcz]) hnd' hfresh',
        stepSpec]
      simp
    · -- unspecified-quota head (splitSize = 0)
      have hze : c.splitSize = 0 := by omega
      have hcz : (countZeros (c :: rest) : Int) = (countZeros rest : Int) + 1 := by
        unfold countZeros
        rw [List.filter_cons_of_pos (by simp [hze])]
        simp only [List.length_cons]
        push_cast
        ring
      have hcwpos : 0 < cw := by rw [hcw, hcz]; positivity
      have hmin : min (min (ceilDiv ((data.length : Int) - T) cw) ((data.length : Int) - s)) ((data.length : Int) - s)
          = min (ceilDiv ((data.length : Int) - T) cw) ((data.length : Int) - s) := by omega
      have hstop : min (s + min (ceilDiv ((data.length : Int) - T) cw) ((data.length : Int) - s)) (data.length : Int)
          = s + min (ceilDiv ((data.length : Int) - T) cw) ((data.length : Int) - s) := by omega
      have hfresh' : ∀ c' ∈ rest, ∀ p ∈ res ++ [((keyOf c),
          sliceRows data c.accountName c.sentType s (s + min (ceilDiv ((data.length : Int) - T) cw) ((data.length : Int) - s)))],
          p.1 ≠ keyOf c' := by
        intro c' hc' p hp
        rcases List.mem_append.mp hp with h | h
        · exact hfresh c' (by simp [hc']) p h
        · have hp1 : p.1 = keyOf c := by
            have : p = ((keyOf c), sliceRows data c.accountName c.sentType s
              (s + min (ceilDiv ((data.length : Int) - T) cw) ((data.length : Int) - s))) := by simpa using h
            rw [this]
          rw [hp1]
          intro hEq
          exact hkc (hEq ▸ List.mem_map_of_mem keyOf hc')
      have step : splitLoop data nCfg T (c :: rest) s cw res =
          splitLoop data nCfg T rest (s + min (ceilDiv ((data.length : Int) - T) cw) ((data.length : Int) - s)) (cw - 1)
            (res ++ [((keyOf c), sliceRows data c.accountName c.sentType s
              (s + min (ceilDiv ((data.length : Int) - T) cw) ((data.length : Int) - s)))]) := by
        rw [splitLoop]
        simp only [if_neg hc, if_pos hcwpos, hmin, hstop]
        rw [if_neg (fun h => hn h.1)]
        rw [setGroup_append _ _ _ hfreshc]
      have stepSpec : specAlloc data T (c :: rest) s cw =
          (((keyOf c), sliceRows data c.accountName c.sentType s
              (s + min (ceilDiv ((data.length : Int) - T) cw) ((data.length : Int) - s))) ::
            (specAlloc data T rest (s + min (ceilDiv ((data.length : Int) - T) cw) ((data.length : Int) - s)) (cw - 1)).1,
           (specAlloc data T rest (s + min (ceilDiv ((data.length : Int) - T) cw) ((data.length : Int) - s)) (cw - 1)).2) := by
        rw [specAlloc]
        simp only [if_neg hc]
      rw [step, ih _ (cw - 1) _ (fun c' h => hnn c' (by simp [h])) (by rw [hcw, hcz]; ring) hnd' hfresh',
        stepSpec]
      simp

theorem demandSum_nonneg (len T : Int) :
    ∀ (cfgs : List SplitConfig) (cw : Int),
      (∀ c ∈ cfgs, 0 ≤ c.splitSize) →
      cw = (countZeros cfgs : Int) →
      (0 < countZeros cfgs → 0 ≤ len - T) →
      0 ≤ demandSum len T cfgs cw := by
  intro cfgs
  induction cfgs with
  | nil => intro cw _ _ _; simp [demandSum]
  | cons c rest ih =>
    intro cw hnn hcw hL
    rw [demandSum]
    by_cases hc : 0 < c.splitSize
    · have hcz := countZeros_cons_pos c rest (by omega)
      have h2 := ih cw (fun c' h => hnn c' (by simp [h]))
        (by rw [hcw, hcz]) (fun h => hL (by omega))
      simp only [if_pos hc]
      omega
    · have hze : c.splitSize = 0 := by have := hnn c (by simp); omega
      have hcz := countZeros_cons_zero c rest hze
      have hLv : 0 ≤ len - T := hL (by omega)
      have hcwpos : 0 < cw := by rw [hcw, hcz]; positivity
      have hhead : 0 ≤ ceilDiv (len - T) cw := jsCeilDiv_nonneg _ _ hLv (by omega)
      have h2 := ih (cw - 1) (fun c' h => hnn c' (by simp [h]))
        (by rw [hcw, hcz]; push_cast; ring) (fun _ => hLv)
      simp only [if_neg hc]
      omega

theorem specAlloc_endIdx (data : List SRow) (T : Int) :
    ∀ (cfgs : List SplitConfig) (s cw : Int),
      (∀ c ∈ cfgs, 0 ≤ c.splitSize) →
      cw = (countZeros cfgs : Int) →
      (0 < countZeros cfgs → 0 ≤ (data.length : Int) - T) →
      0 ≤ s → s ≤ (data.length : Int) →
      (specAlloc data T cfgs s cw).2 =
        min (s + demandSum (data.length : Int) T cfgs cw) (data.length : Int) := by
  intro cfgs
  induction cfgs with
  | nil =>
    intro s cw _ _ _ hs0 hsl
    rw [specAlloc, demandSum]
    simp only [add_zero]
    omega

  | cons c rest ih =>
    intro s cw hnn hcw hL hs0 hsl
    have hd0 : 0 ≤ (if 0 < c.splitSize then c.splitSize else ceilDiv ((data.length : Int) - T) cw) := by
      by_cases hc : 0 < c.splitSize
      · simp only [if_pos hc]; omega
      · have hze : c.splitSize = 0 := by have := hnn c (by simp); omega
        have hcz := countZeros_cons_zero c rest hze
        have hLv : 0 ≤ (data.length : Int) - T := hL (by omega)
        have hcwpos : 0 < cw := by rw [hcw, hcz]; positivity
        simp only [if_neg hc]
        exact jsCeilDiv_nonneg _ _ hLv (by omega)
    by_cases hc : 0 < c.splitSize
    · have hcz := countZeros_cons_pos c rest (by omega)
      have hnn' : ∀ c' ∈ rest, 0 ≤ c'.splitSize := fun c' h => hnn c' (by simp [h])
      have hL' : 0 < countZeros rest → 0 ≤ (data.length : Int) - T := fun h => hL (by omega)
      have hD' := demandSum_nonneg (data.length : Int) T rest cw (by assumption) (by rw [hcw, hcz]) hL'
      rw [specAlloc, demandSum]
      simp only [if_pos hc]
      rw [ih (s + min c.splitSize ((data.length : Int) - s)) cw hnn' (by rw [hcw, hcz]) hL'
        (by simp only [if_pos hc] at hd0; omega) (by omega)]
      omega
    · have hze : c.splitSize = 0 := by have := hnn c (by simp); omega
      have hcz := countZeros_cons_zero c rest hze
      have hnn' : ∀ c' ∈ rest, 0 ≤ c'.splitSize := fun c' h => hnn c' (by simp [h])
      have hLv : 0 ≤ (data.length : Int) - T := hL (by omega)
      have hcw' : cw - 1 = (countZeros rest : Int) := by rw [hcw, hcz]; push_cast; ring
      have hD' := demandSum_nonneg (data.length : Int) T rest (cw - 1) hnn' hcw' (fun _ => hLv)
      rw [specAlloc, demandSum]
      simp only [if_neg hc]
      rw [ih (s + min (ceilDiv ((data.length : Int) - T) cw) ((data.length : Int) - s)) (cw - 1)
        hnn' hcw' (fun _ => hLv) (by simp only [if_neg hc] at hd0; omega) (by omega)]
      omega

theorem demandSum_of_no_zeros (len T : Int) :
    ∀ (cfgs : List SplitConfig) (cw : Int),
      (∀ c ∈ cfgs, 0 ≤ c.splitSize) →
      countZeros cfgs = 0 →
      demandSum len T cfgs cw = sumPosRec cfgs := by
  intro cfgs
  induction cfgs with
  | nil => intro cw _ _; rw [demandSum, sumPosRec]
  | cons c rest ih =>
    intro cw hnn hz
    have hcne : c.splitSize ≠ 0 := by
      intro h
      rw [countZeros_cons_zero c rest h] at hz
      omega
    have hc : 0 < c.splitSize := by have := hnn c (by simp); omega
    have hz' : countZeros rest = 0 := by
      rw [countZeros_cons_pos c rest hcne] at hz
      exact hz
    rw [demandSum, sumPosRec]
    simp only [if_pos hc]
    rw [ih cw (fun c' h => hnn c' (by simp [h])) hz']

theorem demandSum_ge_of_zeros (len T : Int) :
    ∀ (cfgs : List SplitConfig) (cw : Int),
      (∀ c ∈ cfgs, 0 ≤ c.splitSize) →
      cw = (countZeros cfgs : Int) →
      0 ≤ len - T →
      0 < countZeros cfgs →
      sumPosRec cfgs + (len - T) ≤ demandSum len T cfgs cw := by
  intro cfgs
  induction cfgs with
  | nil => intro cw _ _ _ h; simp [countZeros] at h
  | cons c rest ih =>
    intro cw hnn hcw hLv hz
    by_cases hc : 0 < c.splitSize
    · have hcz := countZeros_cons_pos c rest (by omega)
      have hz' : 0 < countZeros rest := by rw [hcz] at hz; exact hz
      have h2 := ih cw (fun c' h => hnn c' (by simp [h])) (by rw [hcw, hcz]) hLv hz'
      rw [demandSum, sumPosRec]
      simp only [if_pos hc]
      omega
    · have hze : c.splitSize = 0 := by have := hnn c (by simp); omega
      have hcz := countZeros_cons_zero c rest hze
      have hcwpos : 0 < cw := by rw [hcw, hcz]; positivity
      have hcw' : cw - 1 = (countZeros rest : Int) := by rw [hcw, hcz]; push_cast; ring
      rw [demandSum, sumPosRec]
      simp only [if_neg hc]
      by_cases hz' : 0 < countZeros rest
      · have h2 := ih (cw - 1) (fun c' h => hnn c' (by simp [h])) hcw' hLv hz'
        have hhead : 0 ≤ ceilDiv (len - T) cw := jsCeilDiv_nonneg _ _ hLv (by omega)
        omega
      · have hz0 : countZeros rest = 0 := by omega
        have hcw1 : cw = 1 := by rw [hcw, hcz, hz0]; rfl
        have h2 := demandSum_of_no_zeros len T rest (cw - 1)
          (fun c' h => hnn c' (by simp [h])) hz0
        rw [h2, hcw1, jsCeilDiv_one]
        omega

theorem specAlloc_keys (data : List SRow) (T : Int) :
    ∀ (cfgs : List SplitConfig) (s cw : Int),
      ((specAlloc data T cfgs s cw).1.map (fun g => g.1)) = cfgs.map keyOf := by
  intro cfgs
  induction cfgs with
  | nil => intro s cw; rw [specAlloc]; rfl
  | cons c rest ih =>
    intro s cw
    rw [specAlloc]
    simp only [List.map_cons]
    rw [ih]

theorem eraseTags_map_set (r : SRow) (k v : String)
    (hk : k = ("account") ∨ k = ("sent")) :
    eraseTags (r.map (fun p => if p.1 = k then (k, v) else p)) = eraseTags r := by
  have hkv : (((k, v) : String × String).1 != ("account") && (k, v).1 != ("sent")) = false := by
    rcases hk with h | h <;> subst h <;> simp
  induction r with
  | nil => rfl
  | cons p rest ih =>
    simp only [List.map_cons]
    unfold eraseTags at ih ⊢
    by_cases hp : p.1 = k
    · have hpf : (p.1 != ("account") && p.1 != ("sent")) = false := by
        rw [hp]
        rcases hk with h | h <;> subst h <;> simp
      rw [if_pos hp]
      rw [List.filter_cons, List.filter_cons, hkv, hpf]
      simpa using ih
    · rw [if_neg hp]
      rw [List.filter_cons, List.filter_cons]
      by_cases hq : (p.1 != ("account") && p.1 != ("sent")) = true
      · rw [hq]
        simpa using ih
      · rw [Bool.not_eq_true] at hq
        rw [hq]
        simpa using ih

theorem eraseTags_setField (r : SRow) (k v : String)
    (hk : k = ("account") ∨ k = ("sent")) :
    eraseTags (setField r k v) = eraseTags r := by
  unfold setField
  split
  · exact eraseTags_map_set r k v hk
  · have hkv : (((k, v) : String × String).1 != ("account") && (k, v).1 != ("sent")) = false := by
      rcases hk with h | h <;> subst h <;> simp
    unfold eraseTags
    rw [List.filter_append]
    rw [List.filter_cons, hkv, List.filter_nil]
    simp

theorem eraseTags_augmentRow (r : SRow) (a s : String) :
    eraseTags (augmentRow r a s) = eraseTags r := by
  unfold augmentRow
  rw [eraseTags_setField _ _ _ (Or.inr rfl), eraseTags_setField _ _ _ (Or.inl rfl)]

theorem sliceRows_map_erase (data : List SRow) (a b : String) (s t : Int) :
    (sliceRows data a b s t).map eraseTags =
      (intRange s t).map (fun i => eraseTags (rowAtIdx data i)) := by
  unfold sliceRows
  rw [List.map_map]
  apply List.map_congr_left
  intro i _
  simp only [Function.comp_apply]
  exact eraseTags_augmentRow _ _ _

theorem specAlloc_bodies (data : List SRow) (T : Int) :
    ∀ (cfgs : List SplitConfig) (s cw : Int),
      (∀ c ∈ cfgs, 0 ≤ c.splitSize) →
      cw = (countZeros cfgs : Int) →
      (0 < countZeros cfgs → 0 ≤ (data.length : Int) - T) →
      0 ≤ s → s ≤ (data.length : Int) →
      (((specAlloc data T cfgs s cw).1.map (fun g => g.2.length)).sum =
          ((specAlloc data T cfgs s cw).2 - s).toNat) ∧
      (((specAlloc data T cfgs s cw).1.flatMap (fun g => g.2)).map eraseTags =
          (intRange s (specAlloc data T cfgs s cw).2).map
            (fun i => eraseTags (rowAtIdx data i))) := by
  intro cfgs
  induction cfgs with
  | nil =>
    intro s cw _ _ _ _ _
    rw [specAlloc]
    constructor
    · simp
    · simp [intRange]
  | cons c rest ih =>
    intro s cw hnn hcw hL hs0 hsl
    set d : Int := (if 0 < c.splitSize then c.splitSize
      else ceilDiv ((data.length : Int) - T) cw) with hd
    have hd0 : 0 ≤ d := by
      rw [hd]
      by_cases hc : 0 < c.splitSize
      · simp only [if_pos hc]; omega
      · have hze : c.splitSize = 0 := by have := hnn c (by simp); omega
        have hcz := countZeros_cons_zero c rest hze
        have hLv : 0 ≤ (data.length : Int) - T := hL (by omega)
        have hcwpos : 0 < cw := by rw [hcw, hcz]; positivity
        simp only [if_neg hc]
        exact jsCeilDiv_nonneg _ _ hLv (by omega)
    set n : Int := min d ((data.length : Int) - s) with hn
    have hn0 : 0 ≤ n := by rw [hn]; omega
    have hnle : s + n ≤ (data.length : Int) := by rw [hn]; omega
    have hcw' : (if 0 < c.splitSize then cw else cw - 1) = (countZeros rest : Int) := by
      by_cases hc : 0 < c.splitSize
      · rw [if_pos hc, hcw, countZeros_cons_pos c rest (by omega)]
      · have hze : c.splitSize = 0 := by have := hnn c (by simp); omega
        rw [if_neg hc, hcw, countZeros_cons_zero c rest hze]
        push_cast
        ring
    have hnn' : ∀ c' ∈ rest, 0 ≤ c'.splitSize := fun c' h => hnn c' (by simp [h])
    have hL' : 0 < countZeros rest → 0 ≤ (data.length : Int) - T := by
      intro h
      apply hL
      by_cases hc : c.splitSize = 0
      · rw [countZeros_cons_zero c rest hc]; omega
      · rw [countZeros_cons_pos c rest hc]; exact h
    have ihh := ih (s + n) _ hnn' hcw' hL' (by omega) hnle
    have hD' := demandSum_nonneg (data.length : Int) T rest _ hnn' hcw' hL'
    have hend := specAlloc_endIdx data T rest (s + n) _ hnn' hcw' hL' (by omega) hnle
    have hge : s + n ≤ (specAlloc data T rest (s + n)
        (if 0 < c.splitSize then cw else cw - 1)).2 := by
      rw [hend]
      omega
    constructor
    · rw [specAlloc]
      simp only [List.map_cons, List.sum_cons, ← hd, ← hn]
      rw [sliceRows_length, ihh.1]
      omega
    · rw [specAlloc]
      simp only [List.flatMap_cons, List.map_append, ← hd, ← hn]
      rw [sliceRows_map_erase, ihh.2, ← List.map_append,
        intRange_append s (s + n) _ (by omega) hge]

theorem specAlloc_fresh_rem (data : List SRow) (T : Int) (configs : List SplitConfig)
    (s cw : Int) (k : String) (hk : ∀ c ∈ configs, keyOf c ≠ k) :
    ∀ p ∈ (specAlloc data T configs s cw).1, p.1 ≠ k := by
  intro p hp
  have hmem : p.1 ∈ (specAlloc data T configs s cw).1.map (fun g => g.1) :=
    List.mem_map_of_mem _ hp
  rw [specAlloc_keys] at hmem
  rcases List.mem_map.mp hmem with ⟨c, hc, hkey⟩
  rw [← hkey]
  exact hk c hc

theorem splitData_eq_spec (data : List SRow) (configs : List SplitConfig)
    (hd : data ≠ [])
    (h0 : ∀ c ∈ configs, 0 ≤ c.splitSize)
    (hk : (configs.map keyOf).Nodup)
    (hz : 0 < countZeros configs → totalSpecified configs ≤ (data.length : Int))
    (hr : (specAlloc data (totalSpecified configs) configs 0 ((countZeros configs : Nat) : Int)).2 < (data.length : Int) →
          ∀ c ∈ configs, keyOf c ≠ remKeyOf configs) :
    splitData data configs =
      (if (specAlloc data (totalSpecified configs) configs 0 ((countZeros configs : Nat) : Int)).2 < (data.length : Int) ∧
          (0 < totalSpecified configs ∧ totalSpecified configs < (data.length : Int) ∧
            (configs.filter (fun c => 0 < c.splitSize)).length = configs.length) then
        (specAlloc data (totalSpecified configs) configs 0 ((countZeros configs : Nat) : Int)).1 ++
          [(remKeyOf configs,
            sliceRows data (lastCfg configs).accountName ((lastCfg configs).sentType ++ ("_remainder"))
              (specAlloc data (totalSpecified configs) configs 0 ((countZeros configs : Nat) : Int)).2 (data.length : Int))]
      else (specAlloc data (totalSpecified configs) configs 0 ((countZeros configs : Nat) : Int)).1) := by
  have hlen0 : data.length ≠ 0 := fun h => hd (List.eq_nil_of_length_eq_zero h)
  have hcw0 : (((configs.filter (fun c => c.splitSize = 0)).length : Nat) : Int) =
      ((countZeros configs : Nat) : Int) := rfl
  by_cases hone : configs.length = 1
  · -- singleton config list: the inline remainder branch of the loop
    rcases List.length_eq_one.mp hone with ⟨c, rfl⟩
    have hlen : 0 < (data.length : Int) := by
      have : 0 < data.length := Nat.pos_of_ne_zero hlen0
      omega
    have hlen1 : [c].length = 1 := rfl
    by_cases hc : 0 < c.splitSize
    · have hT : totalSpecified [c] = c.splitSize := by
        simp [totalSpecified, if_pos hc]
      have hfpos : (List.filter (fun c => 0 < c.splitSize) [c]).length = [c].length := by
        rw [List.filter_cons_of_pos (by simp [hc]), List.filter_nil]
      have hspec : specAlloc data c.splitSize [c] 0 ((countZeros [c] : Nat) : Int) =
          ([(keyOf c, sliceRows data c.accountName c.sentType 0
              (0 + min c.splitSize ((data.length : Int) - 0)))],
            0 + min c.splitSize ((data.length : Int) - 0)) := by
        rw [specAlloc, specAlloc]
        simp only [if_pos hc]
      rw [splitData, if_neg hlen0]
      simp only [hcw0, hT, hfpos, hlen1, hspec]
      rw [splitLoop]
      simp only [if_pos hc]
      by_cases hql : c.splitSize < (data.length : Int)
      · -- quota below the row count: the inline remainder fires
        have hs1 : (0 : Int) + min (min c.splitSize ((data.length : Int) - 0))
            ((data.length : Int) - 0) < (data.length : Int) := by omega
        simp only [true_and]
        rw [if_pos hs1]
        rw [splitLoop]
        rw [setGroup_append ([] : List (String × List SRow)) _ _ (by simp), List.nil_append]
        have hrcond : (0 : Int) + min c.splitSize ((data.length : Int) - 0) < (data.length : Int) := by
          omega
        have hkr : keyOf c ≠ keyOf c ++ ("_remainder") := by
          have := hr (by rw [hT, hspec]; exact hrcond) c (by simp)
          simpa [remKeyOf] using this
        have hfr2 : ∀ p ∈ [(keyOf c, sliceRows data c.accountName c.sentType 0
            (min (0 + min (min c.splitSize ((data.length : Int) - 0)) ((data.length : Int) - 0))
              (data.length : Int)))],
            p.1 ≠ keyOf c ++ ("_remainder") := by
          intro p hp
          have hp1 : p.1 = keyOf c := by
            rw [List.mem_singleton.mp hp]
          rw [hp1]
          exact hkr
        rw [setGroup_append _ _ _ hfr2]
        dsimp only
        simp only [and_true]
        have hcondL : ¬ ((data.length : Int) < (data.length : Int) ∧
            (0 < c.splitSize ∧ c.splitSize < (data.length : Int))) := by
          intro h
          omega
        rw [if_neg hcondL]
        rw [if_pos ⟨hrcond, hc, hql⟩]
        have e1 : min (0 + min (min c.splitSize ((data.length : Int) - 0)) ((data.length : Int) - 0))
            (data.length : Int) = 0 + min c.splitSize ((data.length : Int) - 0) := by omega
        have e2 : (0 : Int) + min (min c.splitSize ((data.length : Int) - 0)) ((data.length : Int) - 0)
            = 0 + min c.splitSize ((data.length : Int) - 0) := by omega
        rw [e1, e2]
        rfl
      · -- quota at or above the row count: everything is consumed, no remainder
        have hs1 : ¬ ((0 : Int) + min (min c.splitSize ((data.length : Int) - 0))
            ((data.length : Int) - 0) < (data.length : Int)) := by
          intro h
          omega
        simp only [true_and]
        rw [if_neg hs1]
        rw [splitLoop]
        rw [setGroup_append ([] : List (String × List SRow)) _ _ (by simp), List.nil_append]
        dsimp only
        simp only [and_true]
        have hcond1 : ¬ ((0 : Int) + min (min c.splitSize ((data.length : Int) - 0))
            ((data.length : Int) - 0) < (data.length : Int) ∧
            (0 < c.splitSize ∧ c.splitSize < (data.length : Int))) := by
          intro h
          have := h.1
          omega
        have hcond2 : ¬ ((0 : Int) + min c.splitSize ((data.length : Int) - 0) < (data.length : Int) ∧
            (0 < c.splitSize ∧ c.splitSize < (data.length : Int))) := by
          intro h
          have := h.1
          omega
        rw [if_neg hcond1, if_neg hcond2]
        have e1 : min (0 + min (min c.splitSize ((data.length : Int) - 0)) ((data.length : Int) - 0))
            (data.length : Int) = 0 + min c.splitSize ((data.length : Int) - 0) := by omega
        rw [e1]
    · -- unspecified quota: the single spec takes everything
      have hze : c.splitSize = 0 := by have := h0 c (by simp); omega
      have hT : totalSpecified [c] = 0 := by
        simp [totalSpecified, if_neg hc]
      have hcz : ((countZeros [c] : Nat) : Int) = 1 := by
        rw [countZeros_cons_zero c [] hze]
        rfl
      have h01 : (0 : Int) < 1 := by norm_num
      have hd1 : ceilDiv ((data.length : Int) - 0) 1 = (data.length : Int) - 0 :=
        jsCeilDiv_one _
      have hspec : specAlloc data 0 [c] 0 (1 : Int) =
          ([(keyOf c, sliceRows data c.accountName c.sentType 0
              (0 + min ((data.length : Int) - 0) ((data.length : Int) - 0)))],
            0 + min ((data.length : Int) - 0) ((data.length : Int) - 0)) := by
        rw [specAlloc, specAlloc]
        simp only [if_neg hc, hd1]
      rw [splitData, if_neg hlen0]
      have hfneg : (List.filter (fun c => 0 < c.splitSize) [c]).length = 0 := by
        rw [List.filter_cons_of_neg (by simp [hc]), List.filter_nil]
        rfl
      simp only [hcw0, hT, hcz, hlen1, hfneg, hspec]
      rw [splitLoop]
      simp only [if_neg hc, if_pos h01, hd1]
      have hs1 : ¬ ((0 : Int) + min ((data.length : Int) - 0)
          ((data.length : Int) - 0) < (data.length : Int)) := by
        intro h
        omega
      simp only [true_and]
      rw [if_neg hs1]
      rw [splitLoop]
      rw [setGroup_append ([] : List (String × List SRow)) _ _ (by simp), List.nil_append]
      dsimp only
      have hcond1 : ¬ ((0 : Int) + min ((data.length : Int) - 0) ((data.length : Int) - 0)
          < (data.length : Int) ∧
          ((0 : Int) < 0 ∧ (0 : Int) < (data.length : Int) ∧ (0 : Nat) = 1)) := by
        intro h
        exact absurd h.2.1 (by norm_num)
      rw [if_neg hcond1, if_neg hcond1]
      have e1 : min ((0 : Int) + min ((data.length : Int) - 0) ((data.length : Int) - 0))
          (data.length : Int) = 0 + min ((data.length : Int) - 0) ((data.length : Int) - 0) := by
        omega
      rw [e1]
  · -- two or more configs (or none): the loop takes the plain path
    have hloop := splitLoop_eq_specAlloc data configs.length (totalSpecified configs) hone
      configs 0 ((countZeros configs : Nat) : Int) [] h0 rfl hk (by simp)
    rw [splitData, if_neg hlen0]
    simp only [hcw0]
    rw [hloop]
    simp only [List.nil_append]
    by_cases hcond : (specAlloc data (totalSpecified configs) configs 0 ((countZeros configs : Nat) : Int)).2 < (data.length : Int) ∧
        (0 < totalSpecified configs ∧ totalSpecified configs < (data.length : Int) ∧
          (configs.filter (fun c => 0 < c.splitSize)).length = configs.length)
    · rw [if_pos hcond, if_pos hcond]
      rw [setGroup_append _ _ _ (specAlloc_fresh_rem data _ configs 0 _ _ (hr hcond.1))]
      rfl
    · rw [if_neg hcond, if_neg hcond]

/-! ## Small corollary lemmas for the amended claims -/

theorem countZeros_pos_iff (cfgs : List SplitConfig) :
    0 < countZeros cfgs ↔ ∃ c ∈ cfgs, c.splitSize = 0 := by
  unfold countZeros
  rw [List.length_pos]
  constructor
  · intro h
    rcases List.exists_mem_of_ne_nil _ h with ⟨c, hc⟩
    have h2 := List.mem_filter.mp hc
    exact ⟨c, h2.1, by simpa using h2.2⟩
  · rintro ⟨c, hc, hz⟩ hnil
    have hm : c ∈ cfgs.filter (fun c => c.splitSize = 0) :=
      List.mem_filter.mpr ⟨hc, by simp [hz]⟩
    rw [hnil] at hm
    exact absurd hm (List.not_mem_nil c)

theorem all_pos_of_no_zero (cfgs : List SplitConfig)
    (h0 : ∀ c ∈ cfgs, 0 ≤ c.splitSize) (hz : countZeros cfgs = 0) :
    ∀ c ∈ cfgs, 0 < c.splitSize := by
  intro c hc
  have h1 := h0 c hc
  have h2 : c.splitSize ≠ 0 := by
    intro hz0
    have : 0 < countZeros cfgs := (countZeros_pos_iff cfgs).mpr ⟨c, hc, hz0⟩
    omega
  omega

theorem countZeros_eq_zero_of_pos (cfgs : List SplitConfig)
    (h : ∀ c ∈ cfgs, 0 < c.splitSize) : countZeros cfgs = 0 := by
  by_contra hne
  have hp : 0 < countZeros cfgs := Nat.pos_of_ne_zero hne
  rcases (countZeros_pos_iff cfgs).mp hp with ⟨c, hc, hz⟩
  have := h c hc
  omega

theorem sumPosRec_pos (cfgs : List SplitConfig) (hne : cfgs ≠ [])
    (hpos : ∀ c ∈ cfgs, 0 < c.splitSize) : 0 < sumPosRec cfgs := by
  match cfgs, hne with
  | c :: rest, _ =>
    have hq := hpos c (by simp)
    have hr := sumPosRec_nonneg rest
    rw [sumPosRec, if_pos hq]
    omega

theorem filter_pos_full (cfgs : List SplitConfig)
    (hpos : ∀ c ∈ cfgs, 0 < c.splitSize) :
    (cfgs.filter (fun c => 0 < c.splitSize)).length = cfgs.length := by
  rw [List.filter_eq_self.mpr (by intro a ha; simpa using hpos a ha)]

theorem intRange_zero_len_erase (data : List SRow) :
    (intRange 0 (data.length : Int)).map (fun i => eraseTags (rowAtIdx data i)) =
      data.map eraseTags := by
  have h1 : ((data.length : Int) - 0).toNat = data.length := by omega
  unfold intRange
  rw [h1, List.map_map]
  rw [List.map_congr_left (g := fun k => eraseTags (data.getD k []))
    (by
      intro k hk
      have hnn : ¬ ((k : Int) < 0) := by omega
      simp only [Function.comp_apply, zero_add, rowAtIdx, Int.ofNat_eq_coe, if_neg hnn,
        Int.toNat_natCast])]
  rw [show (fun k => eraseTags (data.getD k [])) =
    (eraseTags ∘ fun k => data.getD k []) from rfl]
  rw [← List.map_map, range_map_getD]

/-- C1 (amended): for every document and every non-empty spec list whose
derived group keys `accountName ++ "_" ++ sentType` are pairwise distinct and
distinct from the last spec's remainder key, whose splitSize values are all
non-negative, and whose specified quotas total at most the row count whenever
some spec has splitSize 0, the groups returned by splitData partition the
input rows: the group lengths sum to the number of input rows and
concatenating the groups in order and erasing the injected account/sent tags
yields exactly the input rows (tags erased likewise).  The original claim
required only pairwise-distinct (accountName, sentType) PAIRS: distinct pairs
with colliding joined keys lose rows (see the counterexample), and an
over-specified quota total combined with an unspecified spec duplicates rows,
which forces the two extra hypotheses. -/
theorem C1_amended (data : List SRow) (configs : List SplitConfig)
    (hne : configs ≠ [])
    (h0 : ∀ c ∈ configs, 0 ≤ c.splitSize)
    (hk : (configs.map keyOf).Nodup)
    (hr : ∀ c ∈ configs, keyOf c ≠ remKeyOf configs)
    (hz : (∃ c ∈ configs, c.splitSize = 0) →
      totalSpecified configs ≤ (data.length : Int)) :
    ((splitData data configs).map (fun g => g.2.length)).sum = data.length ∧
    ((splitData data configs).flatMap (fun g => g.2)).map eraseTags =
      data.map eraseTags := by
  by_cases hdata : data = []
  · subst hdata
    constructor <;> rfl
  · have hlen : 0 < (data.length : Int) := by
      have : 0 < data.length := List.length_pos.mpr hdata
      omega
    have hz' : 0 < countZeros configs → totalSpecified configs ≤ (data.length : Int) :=
      fun h => hz ((countZeros_pos_iff configs).mp h)
    have hL : 0 < countZeros configs → 0 ≤ (data.length : Int) - totalSpecified configs :=
      fun h => by have := hz' h; omega
    have hmaster := splitData_eq_spec data configs hdata h0 hk hz' (fun _ => hr)
    have hD0 := demandSum_nonneg (data.length : Int) (totalSpecified configs) configs
      ((countZeros configs : Nat) : Int) h0 rfl hL
    have hend := specAlloc_endIdx data (totalSpecified configs) configs 0
      ((countZeros configs : Nat) : Int) h0 rfl hL (by omega) (by omega)
    have hbodies := specAlloc_bodies data (totalSpecified configs) configs 0
      ((countZeros configs : Nat) : Int) h0 rfl hL (by omega) (by omega)
    set spec := specAlloc data (totalSpecified configs) configs 0
      ((countZeros configs : Nat) : Int) with hspecdef
    have hs2le : spec.2 ≤ (data.length : Int) := by rw [hend]; omega
    have hs2ge : 0 ≤ spec.2 := by rw [hend]; omega
    rw [hmaster]
    by_cases hcond : spec.2 < (data.length : Int) ∧
        (0 < totalSpecified configs ∧ totalSpecified configs < (data.length : Int) ∧
          (configs.filter (fun c => 0 < c.splitSize)).length = configs.length)
    · rw [if_pos hcond]
      constructor
      · rw [List.map_append, List.sum_append]
        simp only [List.map_cons, List.map_nil, List.sum_cons, List.sum_nil]
        rw [sliceRows_length, hbodies.1]
        omega
      · rw [List.flatMap_append, List.map_append]
        simp only [List.flatMap_cons, List.flatMap_nil, List.append_nil]
        rw [hbodies.2, sliceRows_map_erase, ← List.map_append,
          intRange_append 0 spec.2 (data.length : Int) hs2ge hs2le,
          intRange_zero_len_erase]
    · rw [if_neg hcond]
      have hfull : spec.2 = (data.length : Int) := by
        by_cases hzc : 0 < countZeros configs
        · have hgz := demandSum_ge_of_zeros (data.length : Int) (totalSpecified configs)
            configs ((countZeros configs : Nat) : Int) h0 rfl (hL hzc) hzc
          have heq := totalSpecified_eq_sumPosRec configs
          rw [hend]
          omega
        · have hzc0 : countZeros configs = 0 := by omega
          have hDT := demandSum_of_no_zeros (data.length : Int) (totalSpecified configs)
            configs ((countZeros configs : Nat) : Int) h0 hzc0
          have heq := totalSpecified_eq_sumPosRec configs
          by_cases hTlen : (data.length : Int) ≤ totalSpecified configs
          · rw [hend, hDT]
            omega
          · exfalso
            apply hcond
            have hallpos := all_pos_of_no_zero configs h0 hzc0
            have hTpos : 0 < totalSpecified configs := by
              have := sumPosRec_pos configs hne hallpos
              omega
            refine ⟨?_, hTpos, by omega, filter_pos_full configs hallpos⟩
            rw [hend, hDT]
            omega
      constructor
      · rw [hbodies.1, hfull]
        omega
      · rw [hbodies.2, hfull, intRange_zero_len_erase]

/-- C4 (amended): for every non-empty document and every spec list with all
splitSize non-negative, at least one splitSize-0 (unspecified) spec, pairwise
distinct derived keys and specified quotas totalling at most the row count,
splitData equals the cursor fold specAlloc: groups appear in spec order, a
positive-quota spec takes min(quota, available) rows, and an unspecified spec
takes min(ceil(L / c), available) rows where L is the FIXED leftover
rowCount - totalSpecified and c counts the unspecified specs from it onward;
no remainder group is created, so the keys are exactly the spec keys.  The
original claim computed the share from the still-unallocated leftover at each
spec's turn, which diverges from the code for three or more unspecified
specs (see the counterexample). -/
theorem C4_amended (data : List SRow) (configs : List SplitConfig)
    (hd : data ≠ [])
    (h0 : ∀ c ∈ configs, 0 ≤ c.splitSize)
    (hex : ∃ c ∈ configs, c.splitSize = 0)
    (hk : (configs.map keyOf).Nodup)
    (hT : totalSpecified configs ≤ (data.length : Int)) :
    splitData data configs =
      (specAlloc data (totalSpecified configs) configs 0 ((countZeros configs : Nat) : Int)).1 ∧
    (splitData data configs).map (fun g => g.1) = configs.map keyOf := by
  have hzc : 0 < countZeros configs := (countZeros_pos_iff configs).mpr hex
  have hz' : 0 < countZeros configs → totalSpecified configs ≤ (data.length : Int) :=
    fun _ => hT
  have hL : 0 < countZeros configs → 0 ≤ (data.length : Int) - totalSpecified configs :=
    fun _ => by omega
  have hD0 := demandSum_nonneg (data.length : Int) (totalSpecified configs) configs
    ((countZeros configs : Nat) : Int) h0 rfl hL
  have hlen : 0 < (data.length : Int) := by
    have : 0 < data.length := List.length_pos.mpr hd
    omega
  have hend := specAlloc_endIdx data (totalSpecified configs) configs 0
    ((countZeros configs : Nat) : Int) h0 rfl hL (by omega) (by omega)
  have hgz := demandSum_ge_of_zeros (data.length : Int) (totalSpecified configs)
    configs ((countZeros configs : Nat) : Int) h0 rfl (by omega) hzc
  have heq := totalSpecified_eq_sumPosRec configs
  have hfull : (specAlloc data (totalSpecified configs) configs 0
      ((countZeros configs : Nat) : Int)).2 = (data.length : Int) := by
    rw [hend]
    omega
  have hr' : (specAlloc data (totalSpecified configs) configs 0
      ((countZeros configs : Nat) : Int)).2 < (data.length : Int) →
      ∀ c ∈ configs, keyOf c ≠ remKeyOf configs := by
    intro hlt
    rw [hfull] at hlt
    exact absurd hlt (lt_irrefl _)
  have hmaster := splitData_eq_spec data configs hd h0 hk hz' hr'
  rw [hmaster, if_neg (by
    intro h
    rw [hfull] at h
    exact absurd h.1 (lt_irrefl _))]
  exact ⟨rfl, specAlloc_keys data (totalSpecified configs) configs 0 _⟩

def quotaGroups (data : List SRow) : List SplitConfig → Int → List (String × List SRow)
  | [], _ => []
  | c :: rest, s =>
    (keyOf c, sliceRows data c.accountName c.sentType s (s + c.splitSize)) ::
      quotaGroups data rest (s + c.splitSize)

theorem specAlloc_eq_quotaGroups (data : List SRow) (T : Int) :
    ∀ (cfgs : List SplitConfig) (s cw : Int),
      (∀ c ∈ cfgs, 0 < c.splitSize) →
      s + sumPosRec cfgs ≤ (data.length : Int) →
      (specAlloc data T cfgs s cw).1 = quotaGroups data cfgs s ∧
      (specAlloc data T cfgs s cw).2 = s + sumPosRec cfgs := by
  intro cfgs
  induction cfgs with
  | nil =>
    intro s cw _ _
    rw [specAlloc, quotaGroups, sumPosRec]
    exact ⟨rfl, by omega⟩
  | cons c rest ih =>
    intro s cw hpos hle
    have hq := hpos c (by simp)
    have hr0 := sumPosRec_nonneg rest
    have hsum : sumPosRec (c :: rest) = c.splitSize + sumPosRec rest := by
      rw [sumPosRec, if_pos hq]
    have hqle : c.splitSize ≤ (data.length : Int) - s := by
      rw [hsum] at hle
      omega
    have hn : min c.splitSize ((data.length : Int) - s) = c.splitSize := by omega
    have ihh := ih (s + c.splitSize) cw
      (fun c' h => hpos c' (by simp [h])) (by rw [hsum] at hle; omega)
    rw [specAlloc, quotaGroups]
    simp only [if_pos hq, hn]
    refine ⟨?_, ?_⟩
    · rw [ihh.1]
    · rw [ihh.2, hsum]
      ring

theorem quotaGroups_sizes (data : List SRow) :
    ∀ (cfgs : List SplitConfig) (s : Int),
      (quotaGroups data cfgs s).map (fun g => g.2.length) =
        cfgs.map (fun c => c.splitSize.toNat) := by
  intro cfgs
  induction cfgs with
  | nil => intro s; rfl
  | cons c rest ih =>
    intro s
    rw [quotaGroups]
    simp only [List.map_cons]
    rw [sliceRows_length, ih]
    congr 1
    omega

/-- C5 (amended): for every non-empty document and every non-empty spec list
with all quotas positive and totalling strictly less than the row count,
whose derived keys are pairwise distinct and distinct from the last spec's
remainder key, splitData satisfies each quota in order with contiguous slices
and appends exactly one remainder group keyed lastKey ++ "_remainder" whose
rows carry account = last accountName and sent = lastSentType ++ "_remainder";
the group sizes are the quotas followed by rowCount - totalSpecified.  The
original claim omitted the key-distinctness hypotheses: a spec key equal to
the remainder key makes the remainder overwrite that spec's group (see the
counterexample). -/
theorem C5_amended (data : List SRow) (configs : List SplitConfig)
    (hd : data ≠ []) (hne : configs ≠ [])
    (hpos : ∀ c ∈ configs, 0 < c.splitSize)
    (hT : totalSpecified configs < (data.length : Int))
    (hk : (configs.map keyOf).Nodup)
    (hr : ∀ c ∈ configs, keyOf c ≠ remKeyOf configs) :
    splitData data configs =
      quotaGroups data configs 0 ++
        [(remKeyOf configs,
          sliceRows data (lastCfg configs).accountName
            ((lastCfg configs).sentType ++ ("_remainder"))
            (totalSpecified configs) (data.length : Int))] ∧
    (splitData data configs).map (fun g => g.2.length) =
      configs.map (fun c => c.splitSize.toNat) ++
        [((data.length : Int) - totalSpecified configs).toNat] := by
  have h0 : ∀ c ∈ configs, 0 ≤ c.splitSize := fun c hc => le_of_lt (hpos c hc)
  have hzc0 : countZeros configs = 0 := countZeros_eq_zero_of_pos configs hpos
  have hz' : 0 < countZeros configs → totalSpecified configs ≤ (data.length : Int) := by
    intro h
    rw [hzc0] at h
    exact absurd h (lt_irrefl 0)
  have heq := totalSpecified_eq_sumPosRec configs
  have hquota := specAlloc_eq_quotaGroups data (totalSpecified configs) configs 0
    ((countZeros configs : Nat) : Int) hpos (by omega)
  have hTpos : 0 < totalSpecified configs := by
    have := sumPosRec_pos configs hne hpos
    omega
  have hcond : (specAlloc data (totalSpecified configs) configs 0
      ((countZeros configs : Nat) : Int)).2 < (data.length : Int) ∧
      (0 < totalSpecified configs ∧ totalSpecified configs < (data.length : Int) ∧
        (configs.filter (fun c => 0 < c.splitSize)).length = configs.length) := by
    refine ⟨?_, hTpos, hT, filter_pos_full configs hpos⟩
    rw [hquota.2]
    omega
  have hmaster := splitData_eq_spec data configs hd h0 hk hz' (fun _ => hr)
  rw [hmaster, if_pos hcond]
  have hstart : (specAlloc data (totalSpecified configs) configs 0
      ((countZeros configs : Nat) : Int)).2 = totalSpecified configs := by
    rw [hquota.2]
    omega
  constructor
  · rw [hquota.1, hstart]
  · rw [hquota.1, hstart, List.map_append, quotaGroups_sizes]
    simp only [List.map_cons, List.map_nil]
    rw [sliceRows_length]

/-- C1 witness: the amended claim applied to 3 rows and specs (A,s1,quota 1),
(B,s2,unspecified). -/
theorem C1_witness :
    ((splitData (sampleRows 3) [⟨"A", "s1", 1⟩, ⟨"B", "s2", 0⟩]).map
        (fun g => g.2.length)).sum = (sampleRows 3).length ∧
    ((splitData (sampleRows 3) [⟨"A", "s1", 1⟩, ⟨"B", "s2", 0⟩]).flatMap
        (fun g => g.2)).map eraseTags = (sampleRows 3).map eraseTags :=
  C1_amended (sampleRows 3) [⟨"A", "s1", 1⟩, ⟨"B", "s2", 0⟩]
    (by decide) (by decide) (by decide) (by decide) (by decide)

/-- C4 witness: the amended claim applied to 4 rows and three unspecified
specs. -/
theorem C4_witness :
    splitData (sampleRows 4) [⟨"A", "s1", 0⟩, ⟨"B", "s2", 0⟩, ⟨"C", "s3", 0⟩] =
      (specAlloc (sampleRows 4)
        (totalSpecified [⟨"A", "s1", 0⟩, ⟨"B", "s2", 0⟩, ⟨"C", "s3", 0⟩])
        [⟨"A", "s1", 0⟩, ⟨"B", "s2", 0⟩, ⟨"C", "s3", 0⟩] 0
        ((countZeros [⟨"A", "s1", 0⟩, ⟨"B", "s2", 0⟩, ⟨"C", "s3", 0⟩] : Nat) : Int)).1 ∧
    (splitData (sampleRows 4) [⟨"A", "s1", 0⟩, ⟨"B", "s2", 0⟩, ⟨"C", "s3", 0⟩]).map
        (fun g => g.1) =
      ([⟨"A", "s1", 0⟩, ⟨"B", "s2", 0⟩, ⟨"C", "s3", 0⟩] : List SplitConfig).map keyOf :=
  C4_amended (sampleRows 4) [⟨"A", "s1", 0⟩, ⟨"B", "s2", 0⟩, ⟨"C", "s3", 0⟩]
    (by decide) (by decide) (by decide) (by decide) (by decide)

/-- C5 witness: the spec's own example, 10 rows with quotas 4 and 3. -/
theorem C5_witness :
    splitData (sampleRows 10) [⟨"A", "s1", 4⟩, ⟨"B", "s2", 3⟩] =
      quotaGroups (sampleRows 10) [⟨"A", "s1", 4⟩, ⟨"B", "s2", 3⟩] 0 ++
        [(remKeyOf [⟨"A", "s1", 4⟩, ⟨"B", "s2", 3⟩],
          sliceRows (sampleRows 10)
            (lastCfg [⟨"A", "s1", 4⟩, ⟨"B", "s2", 3⟩]).accountName
            ((lastCfg [⟨"A", "s1", 4⟩, ⟨"B", "s2", 3⟩]).sentType ++ ("_remainder"))
            (totalSpecified [⟨"A", "s1", 4⟩, ⟨"B", "s2", 3⟩])
            ((sampleRows 10).length : Int))] ∧
    (splitData (sampleRows 10) [⟨"A", "s1", 4⟩, ⟨"B", "s2", 3⟩]).map
        (fun g => g.2.length) =
      ([⟨"A", "s1", 4⟩, ⟨"B", "s2", 3⟩] : List SplitConfig).map
          (fun c => c.splitSize.toNat) ++
        [(((sampleRows 10).length : Int) -
          totalSpecified [⟨"A", "s1", 4⟩, ⟨"B", "s2", 3⟩]).toNat] :=
  C5_amended (sampleRows 10) [⟨"A", "s1", 4⟩, ⟨"B", "s2", 3⟩]
    (by decide) (by decide) (by decide) (by decide) (by decide) (by decide)

/-! ## CSV parser: scan output never contains a quote character -/

theorem mem_of_mem_trimWS (x : Char) (l : List Char) (h : x ∈ trimWS l) : x ∈ l := by
  unfold trimWS at h
  rw [List.mem_reverse] at h
  have h1 := (List.dropWhile_sublist isWS).subset h
  rw [List.mem_reverse] at h1
  exact (List.dropWhile_sublist isWS).subset h1

theorem scanAux_no_quote :
    ∀ (l : List Char) (inQ : Bool) (cur : List Char), '"' ∉ cur →
      ∀ v ∈ scanAux l inQ cur, '"' ∉ v := by
  intro l
  induction l with
  | nil =>
    intro inQ cur hcur v hv
    rw [scanAux] at hv
    rcases List.mem_singleton.mp hv with rfl
    intro hq
    exact hcur (mem_of_mem_trimWS _ _ hq)
  | cons c rest ih =>
    intro inQ cur hcur v hv
    rw [scanAux] at hv
    by_cases hc : c = '"'
    · rw [if_pos hc] at hv
      exact ih (!inQ) cur hcur v hv
    · rw [if_neg hc] at hv
      by_cases hcm : c = ',' ∧ inQ = false
      · rw [if_pos hcm] at hv
        rcases List.mem_cons.mp hv with rfl | hv2
        · intro hq
          exact hcur (mem_of_mem_trimWS _ _ hq)
        · exact ih false [] (by simp) v hv2
      · rw [if_neg hcm] at hv
        refine ih inQ (cur ++ [c]) ?_ v hv
        intro hq
        rcases List.mem_append.mp hq with h1 | h2
        · exact hcur h1
        · exact hc (List.mem_singleton.mp h2).symm

theorem stripQuotes_eq_self_of_no_quote (v : List Char) (h : '"' ∉ v) :
    stripQuotes v = v := by
  unfold stripQuotes
  rw [if_neg]
  intro hcond
  exact h (List.mem_of_mem_head? hcond.1)

theorem mem_setKV_cases (r : CRow) (k' v' : List Char) (p : List Char × List Char)
    (h : p ∈ setKV r k' v') : p ∈ r ∨ p.2 = v' := by
  unfold setKV at h
  split at h
  · rcases List.mem_map.mp h with ⟨q, hq, hqe⟩
    by_cases hpk : q.1 = k'
    · right
      rw [if_pos hpk] at hqe
      rw [← hqe]
    · left
      rw [if_neg hpk] at hqe
      rw [← hqe]
      exact hq
  · rcases List.mem_append.mp h with h1 | h2
    · exact Or.inl h1
    · right
      rw [List.mem_singleton.mp h2]

theorem mem_buildRow_values :
    ∀ (pairs : List (List Char × List Char)) (acc : CRow) (p : List Char × List Char),
      p ∈ pairs.foldl (fun r q => setKV r q.1 (stripQuotes q.2)) acc →
      p ∈ acc ∨ ∃ q ∈ pairs, p.2 = stripQuotes q.2 := by
  intro pairs
  induction pairs with
  | nil =>
    intro acc p h
    exact Or.inl h
  | cons q rest ih =>
    intro acc p h
    rw [List.foldl_cons] at h
    rcases ih _ p h with h1 | ⟨q', hq', he⟩
    · rcases mem_setKV_cases acc q.1 (stripQuotes q.2) p h1 with h2 | h3
      · exact Or.inl h2
      · exact Or.inr ⟨q, by simp, h3⟩
    · exact Or.inr ⟨q', by simp [hq'], he⟩

/-- C9: every field value of every row returned by parseCSV contains no
double-quote character: the scan drops every quote it sees, and the
strip/un-escape step never reinserts one. -/
theorem C9_no_quotes :
    ∀ (s : List Char), ∀ r ∈ parseCSV s, ∀ p ∈ r, '"' ∉ p.2 := by
  intro s r hr p hp
  simp only [parseCSV] at hr
  split at hr
  · exact absurd hr (List.not_mem_nil r)
  · rcases List.mem_filterMap.mp hr with ⟨line, _, hline⟩
    simp only [parseLine] at hline
    split at hline
    · exact absurd hline (by simp)
    · split at hline
      · exact absurd hline (by simp)
      · have hr2 := (Option.some.inj hline).symm
        rw [hr2] at hp
        unfold buildRow at hp
        rcases mem_buildRow_values _ [] p hp with h1 | ⟨q, hq, he⟩
        · exact absurd h1 (List.not_mem_nil p)
        · have hq2 : q.2 ∈ scanValues (trimWS line) := (List.of_mem_zip hq).2
          have hnq : '"' ∉ q.2 :=
            scanAux_no_quote (trimWS line) false [] (by simp) q.2 hq2
          rw [he, stripQuotes_eq_self_of_no_quote q.2 hnq]
          exact hnq

/-- C9 witness: the invariant applied to a concrete CSV string and field. -/
theorem C9_witness : '"' ∉ ((("a").data, ("1").data) : List Char × List Char).2 :=
  C9_no_quotes (("a,b\n1,\"x\"\n").data)
    [(("a").data, ("1").data), (("b").data, ("x").data)] (by decide)
    ((("a").data, ("1").data)) (by decide)

/-! ## CSV serializer: field-level description (C8) -/

/-- One emitted field as the claim words it: the empty string when the row
lacks the header's key; otherwise the value wrapped in quotes with internal
quotes doubled iff it contains a comma, quote or newline; otherwise the
value verbatim. -/
def specFieldC8 (r : CRow) (h : List Char) : List Char :=
  match lookupKV h r with
  | none => []
  | some v =>
    if ',' ∈ v ∨ '"' ∈ v ∨ '\n' ∈ v then '"' :: escQuotes v ++ ['"'] else v

/-- The serialized document as the claim describes it: the header line, then
one line per row with the fields in header order, each line
newline-terminated. -/
def specSerializeC8 (headers : List (List Char)) (data : List CRow) : List Char :=
  joinSep [','] headers ++ ['\n'] ++
    (data.map (fun r => joinSep [','] (headers.map (specFieldC8 r)) ++ ['\n'])).flatten

theorem foldl_append_join (f : CRow → List Char) :
    ∀ (l : List CRow) (init : List Char),
      l.foldl (fun acc row => acc ++ f row ++ ['\n']) init =
        init ++ (l.map (fun row => f row ++ ['\n'])).flatten := by
  intro l
  induction l with
  | nil => intro init; simp
  | cons r rest ih =>
    intro init
    rw [List.foldl_cons, ih]
    simp [List.append_assoc]

theorem csvField_eq_specFieldC8 : csvField = specFieldC8 := by
  funext r h
  unfold csvField specFieldC8
  cases hl : lookupKV h r with
  | none => simp
  | some v => simp

/-- C8: for every non-empty row list and every header list, objectsToCSV is
exactly the header line followed by one line per row whose fields, in header
order, are: the empty string when the row lacks the key, the value wrapped
in doubled-quote escaping iff it contains a comma, quote or newline, and the
value verbatim otherwise. -/
theorem C8_field_emission (data : List CRow) (headers : List (List Char))
    (hne : data ≠ []) :
    objectsToCSV data (some headers) = specSerializeC8 headers data := by
  have hlen : ¬ data.length = 0 := by
    intro h
    exact hne (List.eq_nil_of_length_eq_zero h)
  simp only [objectsToCSV, if_neg hlen]
  rw [foldl_append_join, specSerializeC8, csvField_eq_specFieldC8]

/-- C8 witness: the field description applied to one row with a missing key,
a plain value and a comma value. -/
theorem C8_witness :
    objectsToCSV [[(("a").data, ("x,y").data), (("b").data, ("plain").data)]]
        (some [("a").data, ("b").data, ("c").data]) =
      specSerializeC8 [("a").data, ("b").data, ("c").data]
        [[(("a").data, ("x,y").data), (("b").data, ("plain").data)]] :=
  C8_field_emission [[(("a").data, ("x,y").data), (("b").data, ("plain").data)]]
    [("a").data, ("b").data, ("c").data] (by decide)

/-! ## Round-trip (C2): normalisation and line splitting -/

theorem replaceCRLF_eq_self : ∀ (l : List Char), '\r' ∉ l → replaceCRLF l = l := by
  intro l
  induction l with
  | nil => intro _; rfl
  | cons c rest ih =>
    intro h
    have hc : c ≠ '\r' := fun he => h (by rw [he]; simp)
    have hrest : '\r' ∉ rest := fun he => h (by simp [he])
    cases rest with
    | nil =>
      rw [show replaceCRLF [c] = c :: replaceCRLF [] from by
        rw [replaceCRLF.eq_def]
        split
        · rename_i heq
          rw [List.cons.injEq] at heq
          exact absurd heq.1 hc
        · rename_i c' rest' heq
          rw [List.cons.injEq] at heq
          rw [heq.1, heq.2]
        · rename_i heq
          exact absurd heq (by simp)]
      rfl
    | cons d rest2 =>
      rw [show replaceCRLF (c :: d :: rest2) = c :: replaceCRLF (d :: rest2) from by
        rw [replaceCRLF.eq_def]
        split
        · rename_i heq
          rw [List.cons.injEq] at heq
          exact absurd heq.1 hc
        · rename_i c' rest' heq
          rw [List.cons.injEq] at heq
          rw [heq.1, heq.2]
        · rename_i heq
          exact absurd heq (by simp)]
      rw [ih hrest]

theorem replaceCR_eq_self (l : List Char) (h : '\r' ∉ l) : replaceCR l = l := by
  unfold replaceCR
  rw [List.map_congr_left (g := id) ?_, List.map_id]
  intro c hc
  have : c ≠ '\r' := fun he => h (he ▸ hc)
  simp [this]

theorem normalizeNL_eq_self (l : List Char) (h : '\r' ∉ l) : normalizeNL l = l := by
  unfold normalizeNL
  rw [replaceCRLF_eq_self l h, replaceCR_eq_self l h]

theorem splitOnChar_no_sep (sep : Char) :
    ∀ (l : List Char), sep ∉ l → splitOnChar sep l = [l] := by
  intro l
  induction l with
  | nil => intro _; rfl
  | cons c rest ih =>
    intro h
    have hc : c ≠ sep := fun he => h (by rw [he]; simp)
    have hrest : sep ∉ rest := fun he => h (by simp [he])
    rw [splitOnChar, ih hrest]
    simp [hc]

theorem splitOnChar_ne_nil (sep : Char) : ∀ (l : List Char), splitOnChar sep l ≠ [] := by
  intro l
  cases l with
  | nil => simp [splitOnChar]
  | cons c rest =>
    rw [splitOnChar]
    cases hs : splitOnChar sep rest with
    | nil => simp
    | cons h t =>
      by_cases hc : c = sep <;> simp [hc]

theorem splitOnChar_append_sep (sep : Char) :
    ∀ (a b : List Char), sep ∉ a →
      splitOnChar sep (a ++ sep :: b) = a :: splitOnChar sep b := by
  intro a
  induction a with
  | nil =>
    intro b _
    rw [List.nil_append, splitOnChar]
    cases hsb : splitOnChar sep b with
    | nil => exact absurd hsb (splitOnChar_ne_nil sep b)
    | cons h t => simp
  | cons c rest ih =>
    intro b h
    have hc : c ≠ sep := fun he => h (by rw [he]; simp)
    have hrest : sep ∉ rest := fun he => h (by simp [he])
    rw [List.cons_append, splitOnChar, ih b hrest]
    simp [hc]

theorem splitOnChar_flatten_lines (sep : Char) :
    ∀ (ls : List (List Char)), (∀ l ∈ ls, sep ∉ l) →
      splitOnChar sep ((ls.map (fun l => l ++ [sep])).flatten) = ls ++ [[]] := by
  intro ls
  induction ls with
  | nil => intro _; rfl
  | cons l rest ih =>
    intro h
    rw [List.map_cons, List.flatten_cons, List.append_assoc, List.singleton_append,
      splitOnChar_append_sep sep l _ (h l (by simp)), ih (fun x hx => h x (by simp [hx]))]
    rfl

/-! ## Round-trip (C2): trim invariance -/

theorem dropWhile_eq_self_head (l : List Char)
    (h : ∀ c, l.head? = some c → isWS c = false) : List.dropWhile isWS l = l := by
  cases l with
  | nil => rfl
  | cons a t =>
    rw [List.dropWhile_cons, if_neg]
    rw [h a rfl]
    simp

theorem trimWS_eq_self_of (l : List Char)
    (h1 : ∀ c, l.head? = some c → isWS c = false)
    (h2 : ∀ c, l.getLast? = some c → isWS c = false) : trimWS l = l := by
  unfold trimWS
  rw [dropWhile_eq_self_head l h1]
  rw [dropWhile_eq_self_head l.reverse (by
    intro c hc
    rw [List.head?_reverse] at hc
    exact h2 c hc)]
  exact List.reverse_reverse l

theorem trimWS_length_le (l : List Char) :
    (trimWS l).length ≤ (List.dropWhile isWS l).length := by
  unfold trimWS
  rw [List.length_reverse]
  calc ((l.dropWhile isWS).reverse.dropWhile isWS).length
      ≤ (l.dropWhile isWS).reverse.length := (List.dropWhile_sublist isWS).length_le
    _ = (l.dropWhile isWS).length := List.length_reverse _

theorem trim_head_not_ws (l : List Char) (ht : trimWS l = l) :
    ∀ c, l.head? = some c → isWS c = false := by
  intro c hc
  cases l with
  | nil => exact absurd hc (by simp)
  | cons a t =>
    have ha : a = c := Option.some.inj hc
    by_contra hws
    rw [Bool.not_eq_false] at hws
    have hdrop : List.dropWhile isWS (a :: t) = List.dropWhile isWS t := by
      rw [List.dropWhile_cons, if_pos (by rw [ha]; exact hws)]
    have h1 : (trimWS (a :: t)).length ≤ t.length := by
      calc (trimWS (a :: t)).length ≤ (List.dropWhile isWS (a :: t)).length :=
            trimWS_length_le _
        _ = (List.dropWhile isWS t).length := by rw [hdrop]
        _ ≤ t.length := (List.dropWhile_sublist isWS).length_le
    rw [ht] at h1
    simp at h1

theorem head?_dropWhile (p : Char → Bool) :
    ∀ (x : List Char) (c : Char), (List.dropWhile p x).head? = some c → p c = false := by
  intro x
  induction x with
  | nil => intro c hc; exact absurd hc (by simp)
  | cons a t ih =>
    intro c hc
    rw [List.dropWhile_cons] at hc
    by_cases hp : p a = true
    · rw [if_pos hp] at hc
      exact ih c hc
    · rw [if_neg hp] at hc
      have : a = c := Option.some.inj hc
      rw [← this]
      exact Bool.not_eq_true _ |>.mp hp

theorem trim_getLast_not_ws (l : List Char) (ht : trimWS l = l) :
    ∀ c, l.getLast? = some c → isWS c = false := by
  intro c hc
  have h1 : ((l.dropWhile isWS).reverse.dropWhile isWS).reverse = l := ht
  have h2 : (l.dropWhile isWS).reverse.dropWhile isWS = l.reverse := by
    have h4 := congrArg List.reverse h1
    rwa [List.reverse_reverse] at h4
  have h3 : l.reverse.head? = some c := by
    rw [List.head?_reverse]
    exact hc
  rw [← h2] at h3
  exact head?_dropWhile isWS _ c h3

theorem head_ws_joinSep :
    ∀ (ps : List (List Char)),
      (∀ p ∈ ps, ∀ c, p.head? = some c → isWS c = false) →
      ∀ c, (joinSep [','] ps).head? = some c → isWS c = false := by
  intro ps
  induction ps with
  | nil => intro _ c hc; exact absurd hc (by simp [joinSep])
  | cons p rest ih =>
    intro h c hc
    cases rest with
    | nil =>
      rw [joinSep] at hc
      exact h p (by simp) c hc
    | cons q rest2 =>
      rw [joinSep] at hc
      cases p with
      | nil =>
        rw [List.nil_append, List.cons_append] at hc
        have : c = ',' := (Option.some.inj hc).symm
        rw [this]
        rfl
      | cons a t =>
        rw [List.cons_append, List.cons_append] at hc
        have : a = c := Option.some.inj hc
        exact h (a :: t) (by simp) c (by rw [List.head?_cons, this])

theorem getLast_ws_joinSep :
    ∀ (ps : List (List Char)),
      (∀ p ∈ ps, ∀ c, p.getLast? = some c → isWS c = false) →
      ∀ c, (joinSep [','] ps).getLast? = some c → isWS c = false := by
  intro ps
  induction ps with
  | nil => intro _ c hc; exact absurd hc (by simp [joinSep])
  | cons p rest ih =>
    intro h c hc
    cases rest with
    | nil =>
      rw [joinSep] at hc
      exact h p (by simp) c hc
    | cons q rest2 =>
      rw [joinSep] at hc
      by_cases hj : joinSep [','] (q :: rest2) = []
      · rw [hj, List.append_nil, List.getLast?_concat] at hc
        have : c = ',' := (Option.some.inj hc).symm
        rw [this]
        rfl
      · have e1 : (p ++ ([','] ++ joinSep [','] (q :: rest2))).getLast? =
            ([','] ++ joinSep [','] (q :: rest2)).getLast? :=
          List.getLast?_append_of_ne_nil p (by simp)
        have e2 : ([','] ++ joinSep [','] (q :: rest2)).getLast? =
            (joinSep [','] (q :: rest2)).getLast? :=
          List.getLast?_append_of_ne_nil [','] hj
        rw [List.append_assoc, e1, e2] at hc
        exact ih (fun x hx => h x (by simp [hx])) c hc

theorem trimWS_joinSep (ps : List (List Char))
    (h : ∀ p ∈ ps, trimWS p = p) :
    trimWS (joinSep [','] ps) = joinSep [','] ps := by
  apply trimWS_eq_self_of
  · exact head_ws_joinSep ps (fun p hp => trim_head_not_ws p (h p hp))
  · exact getLast_ws_joinSep ps (fun p hp => trim_getLast_not_ws p (h p hp))

/-! ## Round-trip (C2): the character scan recovers the serialized fields -/

/-- The field encoding of `objectsToCSV`, as a function of the value alone. -/
def escCSV (v : List Char) : List Char :=
  if ',' ∈ v ∨ '"' ∈ v ∨ '\n' ∈ v then '"' :: escQuotes v ++ ['"'] else v

theorem escQuotes_eq_self (v : List Char) (h : '"' ∉ v) : escQuotes v = v := by
  induction v with
  | nil => rfl
  | cons c rest ih =>
    have hc : c ≠ '"' := fun he => h (by rw [he]; simp)
    have hrest : '"' ∉ rest := fun he => h (by simp [he])
    unfold escQuotes at ih ⊢
    rw [List.flatMap_cons, if_neg hc, ih hrest]
    rfl

theorem scanAux_plain_end (v : List Char) (hq : '"' ∉ v) (hcm : ',' ∉ v) :
    ∀ (cur : List Char), scanAux v false cur = [trimWS (cur ++ v)] := by
  induction v with
  | nil => intro cur; rw [scanAux, List.append_nil]
  | cons c rest ih =>
    intro cur
    have hc : c ≠ '"' := fun he => hq (by rw [he]; simp)
    have hc2 : c ≠ ',' := fun he => hcm (by rw [he]; simp)
    rw [scanAux, if_neg hc, if_neg (by simp [hc2])]
    rw [ih (fun he => hq (by simp [he])) (fun he => hcm (by simp [he])) (cur ++ [c])]
    rw [List.append_assoc]
    rfl

theorem scanAux_plain_comma (v : List Char) (hq : '"' ∉ v) (hcm : ',' ∉ v) :
    ∀ (cur rest : List Char),
      scanAux (v ++ ',' :: rest) false cur = trimWS (cur ++ v) :: scanAux rest false [] := by
  induction v with
  | nil =>
    intro cur rest
    rw [List.nil_append, scanAux, if_neg (by decide), if_pos (by simp), List.append_nil]
  | cons c tail ih =>
    intro cur rest
    have hc : c ≠ '"' := fun he => hq (by rw [he]; simp)
    have hc2 : c ≠ ',' := fun he => hcm (by rw [he]; simp)
    rw [List.cons_append, scanAux, if_neg hc, if_neg (by simp [hc2])]
    rw [ih (fun he => hq (by simp [he])) (fun he => hcm (by simp [he])) (cur ++ [c]) rest]
    rw [List.append_assoc]
    rfl

theorem scanAux_quoted_run (v : List Char) (hq : '"' ∉ v) :
    ∀ (cur tail : List Char),
      scanAux (v ++ '"' :: tail) true cur = scanAux tail false (cur ++ v) := by
  induction v with
  | nil =>
    intro cur tail
    rw [List.nil_append, scanAux, if_pos rfl, List.append_nil]
    rfl
  | cons c rest ih =>
    intro cur tail
    have hc : c ≠ '"' := fun he => hq (by rw [he]; simp)
    rw [List.cons_append, scanAux, if_neg hc, if_neg (by simp)]
    rw [ih (fun he => hq (by simp [he])) (cur ++ [c]) tail]
    rw [List.append_assoc]
    rfl

theorem scanAux_field_end (v : List Char) (hq : '"' ∉ v) (_hnl : '\n' ∉ v)
    (ht : trimWS v = v) (cur : List Char) (hcur : cur = []) :
    scanAux (escCSV v) false cur = [v] := by
  subst hcur
  unfold escCSV
  by_cases hcm : ',' ∈ v ∨ '"' ∈ v ∨ '\n' ∈ v
  · rw [if_pos hcm, escQuotes_eq_self v hq]
    show scanAux ('"' :: (v ++ ['"'])) false [] = [v]
    rw [scanAux, if_pos rfl]
    show scanAux (v ++ '"' :: []) true [] = [v]
    rw [scanAux_quoted_run v hq [] []]
    rw [scanAux, List.nil_append, ht]
  · rw [if_neg hcm]
    have hcm2 : ',' ∉ v := fun he => hcm (Or.inl he)
    rw [scanAux_plain_end v hq hcm2 [], List.nil_append, ht]

theorem scanAux_field_comma (v : List Char) (hq : '"' ∉ v) (_hnl : '\n' ∉ v)
    (ht : trimWS v = v) (rest : List Char) :
    scanAux (escCSV v ++ ',' :: rest) false [] = v :: scanAux rest false [] := by
  unfold escCSV
  by_cases hcm : ',' ∈ v ∨ '"' ∈ v ∨ '\n' ∈ v
  · rw [if_pos hcm, escQuotes_eq_self v hq]
    show scanAux ('"' :: (v ++ ['"'] ++ ',' :: rest)) false [] = v :: scanAux rest false []
    rw [scanAux, if_pos rfl, List.append_assoc]
    show scanAux (v ++ '"' :: ',' :: rest) true [] = v :: scanAux rest false []
    rw [scanAux_quoted_run v hq [] (',' :: rest)]
    rw [scanAux, if_neg (by decide), if_pos (by simp), List.nil_append, ht]
  · rw [if_neg hcm]
    have hcm2 : ',' ∉ v := fun he => hcm (Or.inl he)
    rw [scanAux_plain_comma v hq hcm2 [] rest, List.nil_append, ht]

theorem scanValues_fields :
    ∀ (vs : List (List Char)), vs ≠ [] →
      (∀ v ∈ vs, '"' ∉ v ∧ '\n' ∉ v ∧ trimWS v = v) →
      scanValues (joinSep [','] (vs.map escCSV)) = vs := by
  intro vs
  induction vs with
  | nil => intro hne _; exact absurd rfl hne
  | cons v rest ih =>
    intro _ h
    obtain ⟨hq, hnl, ht⟩ := h v (by simp)
    cases rest with
    | nil =>
      unfold scanValues
      rw [List.map_cons, List.map_nil, joinSep]
      exact scanAux_field_end v hq hnl ht [] rfl
    | cons w rest2 =>
      unfold scanValues
      rw [List.map_cons, List.map_cons, joinSep, List.append_assoc]
      show scanAux (escCSV v ++ ',' :: joinSep [','] (escCSV w :: rest2.map escCSV))
          false [] = v :: w :: rest2
      rw [scanAux_field_comma v hq hnl ht _]
      have h2 := ih (by simp) (fun x hx => h x (by simp [hx]))
      unfold scanValues at h2
      rw [List.map_cons] at h2
      rw [h2]

/-! ## Round-trip (C2): rebuilding the row from the scanned values -/

theorem lookup_of_nodup :
    ∀ (r : CRow), (r.map Prod.fst).Nodup → ∀ p ∈ r, lookupKV p.1 r = some p.2 := by
  intro r
  induction r with
  | nil => intro _ p hp; exact absurd hp (List.not_mem_nil p)
  | cons q rest ih =>
    intro hnd p hp
    have hnd' : (rest.map Prod.fst).Nodup := (List.nodup_cons.mp hnd).2
    have hq1 : q.1 ∉ rest.map Prod.fst := (List.nodup_cons.mp hnd).1
    rcases List.mem_cons.mp hp with rfl | hp2
    · rw [lookupKV, if_pos rfl]
    · have hne : q.1 ≠ p.1 := by
        intro he
        exact hq1 (he ▸ List.mem_map_of_mem Prod.fst hp2)
      rw [lookupKV, if_neg ?_, ih hnd' p hp2]
      intro he
      exact hne he

theorem setKV_append (r : CRow) (k v : List Char)
    (h : ∀ p ∈ r, p.1 ≠ k) : setKV r k v = r ++ [(k, v)] := by
  unfold setKV
  have hc : (r.any (fun p => p.1 = k)) = false := by
    simp only [List.any_eq_false, decide_eq_true_eq]
    exact h
  simp [hc]

theorem foldl_setKV_eq :
    ∀ (pairs : List (List Char × List Char)) (acc : CRow),
      (pairs.map Prod.fst).Nodup →
      (∀ k ∈ pairs.map Prod.fst, ∀ p ∈ acc, p.1 ≠ k) →
      pairs.foldl (fun r q => setKV r q.1 (stripQuotes q.2)) acc =
        acc ++ pairs.map (fun q => (q.1, stripQuotes q.2)) := by
  intro pairs
  induction pairs with
  | nil => intro acc _ _; simp
  | cons q rest ih =>
    intro acc hnd hfresh
    rw [List.foldl_cons, setKV_append acc q.1 (stripQuotes q.2)
      (hfresh q.1 (by simp))]
    rw [ih (acc ++ [(q.1, stripQuotes q.2)]) (List.nodup_cons.mp (by simpa using hnd)).2 ?_]
    · simp
    · intro k hk p hp
      rcases List.mem_append.mp hp with h1 | h2
      · exact hfresh k (by simp [hk]) p h1
      · have hp1 : p.1 = q.1 := by
          rw [List.mem_singleton.mp h2]
        rw [hp1]
        intro he
        exact (List.nodup_cons.mp (by simpa using hnd)).1 (he ▸ hk)

theorem trim_escCSV (v : List Char) (ht : trimWS v = v) :
    trimWS (escCSV v) = escCSV v := by
  unfold escCSV
  split
  · apply trimWS_eq_self_of
    · intro c hc
      rw [show ('"' :: escQuotes v ++ ['"']) = '"' :: (escQuotes v ++ ['"']) from rfl,
        List.head?_cons] at hc
      rw [← Option.some.inj hc]
      rfl
    · intro c hc
      rw [show ('"' :: escQuotes v ++ ['"']) = ('"' :: escQuotes v) ++ ['"'] from rfl,
        List.getLast?_concat] at hc
      rw [← Option.some.inj hc]
      rfl
  · exact ht

theorem buildRow_recovers (headers values : List (List Char))
    (hnd : headers.Nodup) (hlen : headers.length = values.length)
    (hq : ∀ v ∈ values, '"' ∉ v) :
    buildRow headers values = headers.zip values := by
  unfold buildRow
  rw [foldl_setKV_eq (headers.zip values) []
    (by rw [List.map_fst_zip headers values (by omega)]; exact hnd)
    (by intro k _ p hp; exact absurd hp (List.not_mem_nil p))]
  rw [List.nil_append]
  have : ∀ q ∈ headers.zip values, (q.1, stripQuotes q.2) = q := by
    intro q hq2
    rw [stripQuotes_eq_self_of_no_quote q.2 (hq q.2 (List.of_mem_zip hq2).2)]
  calc (headers.zip values).map (fun q => (q.1, stripQuotes q.2))
      = (headers.zip values).map (fun q => q) := List.map_congr_left this
    _ = headers.zip values := List.map_id' _

theorem parseLine_rowLine (headers : List (List Char)) (r : CRow)
    (hh0 : headers ≠ [])
    (hnd : headers.Nodup)
    (hrk : r.map Prod.fst = headers)
    (hrv : ∀ p ∈ r, '"' ∉ p.2 ∧ '\n' ∉ p.2 ∧ trimWS p.2 = p.2)
    (hnb : joinSep [','] (headers.map (csvField r)) ≠ []) :
    parseLine headers (joinSep [','] (headers.map (csvField r))) = some r := by
  have hndk : (r.map Prod.fst).Nodup := by rw [hrk]; exact hnd
  have hmap : headers.map (csvField r) = (r.map Prod.snd).map escCSV := by
    rw [← hrk, List.map_map, List.map_map]
    apply List.map_congr_left
    intro p hp
    simp only [Function.comp_apply]
    show csvField r p.1 = escCSV p.2
    unfold csvField escCSV
    rw [lookup_of_nodup r hndk p hp]
    rfl
  have hvs : ∀ v ∈ r.map Prod.snd, '"' ∉ v ∧ '\n' ∉ v ∧ trimWS v = v := by
    intro v hv
    rcases List.mem_map.mp hv with ⟨p, hp, he⟩
    rw [← he]
    exact hrv p hp
  have hvne : r.map Prod.snd ≠ [] := by
    intro he
    have : r = [] := by simpa using he
    rw [this] at hrk
    exact hh0 (by simpa using hrk.symm)
  have htrim : trimWS (joinSep [','] (headers.map (csvField r))) =
      joinSep [','] (headers.map (csvField r)) := by
    apply trimWS_joinSep
    intro p hp
    rw [hmap] at hp
    rcases List.mem_map.mp hp with ⟨v, hv, he⟩
    rw [← he]
    exact trim_escCSV v (hvs v hv).2.2
  have hscan : scanValues (joinSep [','] (headers.map (csvField r))) = r.map Prod.snd := by
    rw [hmap]
    exact scanValues_fields (r.map Prod.snd) hvne hvs
  have hlen : (r.map Prod.snd).length = headers.length := by
    rw [← hrk]
    simp
  simp only [parseLine, htrim, hscan]
  rw [if_neg (by simpa using hnb), if_neg (by omega)]
  congr 1
  rw [buildRow_recovers headers (r.map Prod.snd) hnd (by omega)
    (fun v hv => (hvs v hv).1)]
  rw [← hrk]
  exact List.zip_of_prod rfl rfl |>.symm

/-! ## Round-trip (C2): assembling the whole document -/

theorem not_mem_joinSep (x : Char) :
    ∀ (ps : List (List Char)), x ≠ ',' → (∀ p ∈ ps, x ∉ p) →
      x ∉ joinSep [','] ps := by
  intro ps
  induction ps with
  | nil => intro _ _; simp [joinSep]
  | cons p rest ih =>
    intro hx h
    cases rest with
    | nil =>
      rw [joinSep]
      exact h p (by simp)
    | cons q rest2 =>
      rw [joinSep]
      intro hmem
      rcases List.mem_append.mp hmem with h1 | h2
      · rcases List.mem_append.mp h1 with h3 | h4
        · exact h p (by simp) h3
        · exact hx (List.mem_singleton.mp h4)
      · exact ih hx (fun z hz => h z (by simp [hz])) h2

theorem splitOnChar_joinSep :
    ∀ (ps : List (List Char)), ps ≠ [] → (∀ p ∈ ps, ',' ∉ p) →
      splitOnChar ',' (joinSep [','] ps) = ps := by
  intro ps
  induction ps with
  | nil => intro h _; exact absurd rfl h
  | cons p rest ih =>
    intro _ h
    cases rest with
    | nil =>
      rw [joinSep]
      exact splitOnChar_no_sep ',' p (h p (by simp))
    | cons q rest2 =>
      rw [joinSep, List.append_assoc]
      rw [show ([','] ++ joinSep [','] (q :: rest2)) = ',' :: joinSep [','] (q :: rest2)
        from rfl]
      rw [splitOnChar_append_sep ',' p _ (h p (by simp))]
      rw [ih (by simp) (fun z hz => h z (by simp [hz]))]

theorem not_mem_escQuotes (x : Char) (v : List Char) (hx : x ≠ '"') (h : x ∉ v) :
    x ∉ escQuotes v := by
  unfold escQuotes
  intro hmem
  rcases List.mem_flatMap.mp hmem with ⟨c, hc, hx2⟩
  by_cases hcq : c = '"'
  · rw [if_pos hcq] at hx2
    rcases List.mem_cons.mp hx2 with rfl | h2
    · exact hx rfl
    · exact hx (List.mem_singleton.mp h2)
  · rw [if_neg hcq] at hx2
    rw [List.mem_singleton.mp hx2] at h
    exact h hc

theorem lookupKV_some_mem (k v : List Char) :
    ∀ (r : CRow), lookupKV k r = some v → (k, v) ∈ r := by
  intro r
  induction r with
  | nil => intro h; exact absurd h (by simp [lookupKV])
  | cons p rest ih =>
    intro h
    rw [lookupKV] at h
    by_cases hp : p.1 = k
    · rw [if_pos hp] at h
      have : p.2 = v := Option.some.inj h
      rw [← hp, ← this]
      exact List.mem_cons_self p rest
    · rw [if_neg hp] at h
      exact List.mem_cons_of_mem p (ih h)

theorem not_mem_csvField (x : Char) (r : CRow) (h : List Char)
    (hx : x ≠ '"')
    (hr : ∀ p ∈ r, x ∉ p.2) : x ∉ csvField r h := by
  unfold csvField
  cases hl : lookupKV h r with
  | none =>
    simp only [Option.getD_none]
    rw [if_neg (by simp)]
    simp
  | some v =>
    simp only [Option.getD_some]
    have hv : x ∉ v := hr (h, v) (lookupKV_some_mem h v r hl)
    split
    · intro hmem
      rcases List.mem_cons.mp hmem with rfl | h2
      · exact hx rfl
      · rcases List.mem_append.mp h2 with h3 | h4
        · exact not_mem_escQuotes x v hx hv h3
        · exact hx (List.mem_singleton.mp h4)
    · exact hv

theorem filterMap_some_id :
    ∀ (l : List CRow) (f : List Char → Option CRow) (g : CRow → List Char),
      (∀ x ∈ l, f (g x) = some x) → (l.map g).filterMap f = l := by
  intro l
  induction l with
  | nil => intro f g _; rfl
  | cons r rest ih =>
    intro f g h
    rw [List.map_cons, List.filterMap_cons, h r (by simp)]
    rw [ih f g (fun x hx => h x (by simp [hx]))]

/-- C2 (amended): parse(serialize(rows, headers)) reproduces the rows
whenever the two codecs can faithfully carry them: headers are non-empty,
distinct, trim-invariant and free of commas, newlines and carriage returns;
every row has exactly the headers as its keys in order; every value is free
of double quotes, newlines and carriage returns and is trim-invariant; and
no row serialises to a blank line.  The original claim also allowed embedded
quotes and embedded newlines, which do not survive the parser: the scan
drops quote characters and the line split knows nothing of quoted newlines
(see the counterexample). -/
theorem C2_amended (headers : List (List Char)) (rows : List CRow)
    (hh0 : headers ≠ [])
    (hhnd : headers.Nodup)
    (hh : ∀ h ∈ headers, trimWS h = h ∧ ',' ∉ h ∧ '\n' ∉ h ∧ '\r' ∉ h)
    (hrk : ∀ r ∈ rows, r.map Prod.fst = headers)
    (hrv : ∀ r ∈ rows, ∀ p ∈ r, '"' ∉ p.2 ∧ '\n' ∉ p.2 ∧ '\r' ∉ p.2 ∧ trimWS p.2 = p.2)
    (hnb : ∀ r ∈ rows, joinSep [','] (headers.map (csvField r)) ≠ []) :
    parseCSV (objectsToCSV rows (some headers)) = rows := by
  by_cases hrows : rows = []
  · subst hrows
    rfl
  · have hlen0 : ¬ rows.length = 0 := fun h => hrows (List.eq_nil_of_length_eq_zero h)
    have hshape : objectsToCSV rows (some headers) =
        joinSep [','] headers ++ ['\n'] ++
          (rows.map (fun r => joinSep [','] (headers.map (csvField r)) ++ ['\n'])).flatten := by
      simp only [objectsToCSV, if_neg hlen0]
      rw [foldl_append_join]
    have hhl_nl : '\n' ∉ joinSep [','] headers :=
      not_mem_joinSep '\n' headers (by decide) (fun p hp => (hh p hp).2.2.1)
    have hhl_cr : '\r' ∉ joinSep [','] headers :=
      not_mem_joinSep '\r' headers (by decide) (fun p hp => (hh p hp).2.2.2)
    have hline_nl : ∀ r ∈ rows, '\n' ∉ joinSep [','] (headers.map (csvField r)) := by
      intro r hr
      apply not_mem_joinSep '\n' _ (by decide)
      intro p hp
      rcases List.mem_map.mp hp with ⟨hcol, hhm, he⟩
      rw [← he]
      exact not_mem_csvField '\n' r hcol (by decide) (fun q hq => (hrv r hr q hq).2.1)
    have hline_cr : ∀ r ∈ rows, '\r' ∉ joinSep [','] (headers.map (csvField r)) := by
      intro r hr
      apply not_mem_joinSep '\r' _ (by decide)
      intro p hp
      rcases List.mem_map.mp hp with ⟨hcol, hhm, he⟩
      rw [← he]
      exact not_mem_csvField '\r' r hcol (by decide) (fun q hq => (hrv r hr q hq).2.2.1)
    have hnoCR : '\r' ∉ objectsToCSV rows (some headers) := by
      rw [hshape]
      intro hmem
      rcases List.mem_append.mp hmem with h1 | h2
      · rcases List.mem_append.mp h1 with h3 | h4
        · exact hhl_cr h3
        · exact absurd (List.mem_singleton.mp h4) (by decide)
      · rcases List.mem_flatten.mp h2 with ⟨l, hl, hx⟩
        rcases List.mem_map.mp hl with ⟨r, hr, he⟩
        rw [← he] at hx
        rcases List.mem_append.mp hx with h5 | h6
        · exact hline_cr r hr h5
        · exact absurd (List.mem_singleton.mp h6) (by decide)
    have hsplit : splitOnChar '\n' (normalizeNL (objectsToCSV rows (some headers))) =
        joinSep [','] headers ::
          (rows.map (fun r => joinSep [','] (headers.map (csvField r))) ++ [[]]) := by
      rw [normalizeNL_eq_self _ hnoCR, hshape, List.append_assoc]
      rw [show (['\n'] ++
          (rows.map (fun r => joinSep [','] (headers.map (csvField r)) ++ ['\n'])).flatten) =
          '\n' :: (rows.map (fun r => joinSep [','] (headers.map (csvField r)) ++ ['\n'])).flatten
        from rfl]
      rw [splitOnChar_append_sep '\n' _ _ hhl_nl]
      rw [show rows.map (fun r => joinSep [','] (headers.map (csvField r)) ++ ['\n']) =
          (rows.map (fun r => joinSep [','] (headers.map (csvField r)))).map
            (fun l => l ++ ['\n'])
        from by rw [List.map_map]; rfl]
      rw [splitOnChar_flatten_lines '\n' _ (by
        intro l hl
        rcases List.mem_map.mp hl with ⟨r, hr, he⟩
        rw [← he]
        exact hline_nl r hr)]
    simp only [parseCSV, hsplit]
    rw [if_neg (by
      simp only [List.length_cons, List.length_append, List.length_map]
      omega)]
    rw [List.headD_cons]
    rw [splitOnChar_joinSep headers hh0 (fun p hp => (hh p hp).2.1)]
    rw [show headers.map trimWS = headers from by
      calc headers.map trimWS = headers.map id :=
            List.map_congr_left (fun h hm => (hh h hm).1)
        _ = headers := List.map_id headers]
    rw [show List.drop 1 (joinSep [','] headers ::
        (rows.map (fun r => joinSep [','] (headers.map (csvField r))) ++ [[]])) =
        rows.map (fun r => joinSep [','] (headers.map (csvField r))) ++ [[]] from rfl]
    rw [List.filterMap_append]
    rw [show List.filterMap (parseLine headers) [[]] = [] from by
      rw [List.filterMap_cons]
      rw [show parseLine headers [] = none from rfl]
      rfl]
    rw [filterMap_some_id rows (parseLine headers)
      (fun r => joinSep [','] (headers.map (csvField r))) (by
        intro r hr
        exact parseLine_rowLine headers r hh0 hhnd (hrk r hr)
          (fun p hp => ⟨(hrv r hr p hp).1, (hrv r hr p hp).2.1, (hrv r hr p hp).2.2.2⟩)
          (hnb r hr))]
    exact List.append_nil rows

/-- C2 witness: the amended round-trip applied to one row containing a
comma-bearing value. -/
theorem C2_witness :
    parseCSV (objectsToCSV
      [[(("name").data, ("Alice").data), (("note").data, ("hello, world").data)]]
      (some [("name").data, ("note").data])) =
      [[(("name").data, ("Alice").data), (("note").data, ("hello, world").data)]] :=
  C2_amended [("name").data, ("note").data]
    [[(("name").data, ("Alice").data), (("note").data, ("hello, world").data)]]
    (by decide) (by decide) (by decide) (by decide) (by decide) (by decide)
